import Mathlib

/-!
Shallow embedding of the quant repository (Go) in Lean 4.

Modelling conventions, used throughout:
* An image (Go `image.Image`) is modelled by its bounds and its `At`
  function.  Bounds are normalised to `[0,w) x [0,h)`; the algorithms only
  ever enumerate `b.Min.X <= x < b.Max.X`, `b.Min.Y <= y < b.Max.Y` and are
  translation invariant, so the origin is fixed at 0.
* `At(x,y).RGBA()` yields four `uint32` channel values; the alpha channel is
  ignored by every algorithm here, so a pixel's colour is a triple of `Nat`.
  The `image/color` contract keeps each channel in `0 .. 0xffff`; theorems
  that need this carry it as an explicit hypothesis (`ImgWF`).
* Machine integers are modelled as `Nat`/`Int`.  Where the Go code can
  genuinely wrap (the `uint16` truncation in the median buffer, the `uint8`
  truncation of palette indices and colour components) an explicit `% 2^w`
  appears.  `uint32` subtraction `max - min` is modelled by `Nat` truncated
  subtraction: for a non-empty pixel list no wrap can occur (values are at
  most 0xffff), and for the empty list both the Go wrap (all three ranges
  equal 1) and the truncated model (all three ranges equal 0) select the
  green channel and report "not splittable", so the two agree extensionally.
* Go code that panics (index out of range, integer division by zero,
  `make` with negative length) is modelled with `Option`: `none` marks the
  panic.
* Go `int` division truncates toward zero; on `Int` this is `Int.tdiv`.
  All `Nat` divisions coincide with the Go nonnegative cases.
-/

namespace Quant

/-- Colour of one pixel as returned by `At(x,y).RGBA()`, alpha omitted
(every algorithm in the repository discards it). -/
structure RGB where
  r : Nat
  g : Nat
  b : Nat
deriving DecidableEq, Repr

/-- Pixel coordinate (Go `type point struct{ x, y int32 }`); coordinates are
kept as `Nat` since bounds are normalised to start at 0. -/
structure Point where
  x : Nat
  y : Nat
deriving DecidableEq, Repr

/-- Image: bounds normalised to `[0,w) x [0,h)` plus the `At` accessor. -/
structure Img where
  w : Nat
  h : Nat
  At : Point → RGB

/-- Well-formedness from the `image/color` contract: `RGBA()` channel values
lie in `0 .. 0xffff`. -/
def ImgWF (img : Img) : Prop :=
  ∀ p : Point, (img.At p).r ≤ 0xffff ∧ (img.At p).g ≤ 0xffff ∧ (img.At p).b ≤ 0xffff

/-- Row-major list of all pixel coordinates, as built by the population loops
in `newQuantizer` (median and mean): `for y ...: for x ...: append (x,y)`. -/
def pixelList (img : Img) : List Point :=
  ((List.range img.h).map fun y => (List.range img.w).map fun x => Point.mk x y).flatten

/-- Go `w` constants `wr`, `wg`, `wb` naming the channel with the widest
range. -/
inductive Channel
  | wr
  | wg
  | wb
deriving DecidableEq, Repr

/-- Channel projection used by the `switch c.widestCh` statements. -/
def chVal : Channel → RGB → Nat
  | .wr, c => c.r
  | .wg, c => c.g
  | .wb, c => c.b

/-- Per-channel extrema accumulator of `setWidestChannel` / `setPriority`. -/
structure Extents where
  minR : Nat
  maxR : Nat
  minG : Nat
  maxG : Nat
  minB : Nat
  maxB : Nat
deriving DecidableEq, Repr

/-- `math.MaxUint32`, the initial value of the minima. -/
def u32max : Nat := 4294967295

/-- Initial accumulator: `maxR, maxG, maxB = 0`, minima `= math.MaxUint32`. -/
def ext0 : Extents := ⟨u32max, 0, u32max, 0, u32max, 0⟩

/-- One step of the extrema loop body (the six `if` statements). -/
def extStep (e : Extents) (c : RGB) : Extents :=
  { minR := if c.r < e.minR then c.r else e.minR
    maxR := if c.r > e.maxR then c.r else e.maxR
    minG := if c.g < e.minG then c.g else e.minG
    maxG := if c.g > e.maxG then c.g else e.maxG
    minB := if c.b < e.minB then c.b else e.minB
    maxB := if c.b > e.maxB then c.b else e.maxB }

/-- Extrema of colour values over a pixel list (the `for _, p := range c.px`
loop shared by `setWidestChannel` and `setPriority`). -/
def extents (img : Img) (px : List Point) : Extents :=
  px.foldl (fun e p => extStep e (img.At p)) ext0

/-- Widest-channel choice: start from green, overwrite by red if its range is
strictly wider, then by blue if its range is strictly wider; returns the
channel together with the chosen channel's `(min, max)`.  This is the tail of
both `setWidestChannel` (median) and `setPriority` (mean), which contain the
identical block. -/
def widestOf (e : Extents) : Channel × Nat × Nat :=
  if e.maxR - e.minR > e.maxG - e.minG then
    if e.maxB - e.minB > e.maxR - e.minR then (Channel.wb, e.minB, e.maxB)
    else (Channel.wr, e.minR, e.maxR)
  else
    if e.maxB - e.minB > e.maxG - e.minG then (Channel.wb, e.minB, e.maxB)
    else (Channel.wg, e.minG, e.maxG)

/-- Median `setWidestChannel`: the chosen channel plus the `max > min`
return value ("this cluster can be split"). -/
def setWidestChannel (img : Img) (px : List Point) : Channel × Bool :=
  let r := widestOf (extents img px)
  (r.1, r.2.2 > r.2.1)

/-- Median: copy of the widest channel's values into the scratch buffer
`q.ch`; the buffer element type `uint16` truncates (`ch[i] = uint16(r)`). -/
def chanVals (img : Img) (w : Channel) (px : List Point) : List Nat :=
  px.map fun p => chVal w (img.At p) % 65536

/-- Median `medianCut` leftward scan:
`for m1--; m1 > 0 && ch[m1] == ch[m1-1]; m1-- {}` starting at `m1 - 1`. -/
def scanDown (ch : List Nat) : Nat → Nat
  | 0 => 0
  | m + 1 => if ch.getD (m + 1) 0 = ch.getD m 0 then scanDown ch m else m + 1

/-- Median `medianCut` rightward scan:
`for m2++; m2 < len(ch) && ch[m2] == ch[m2-1]; m2++ {}`.  The scan moves up
by at most `len - m` steps, supplied as structural fuel by the caller. -/
def scanUpAux (ch : List Nat) (len : Nat) : Nat → Nat → Nat
  | 0, m => m
  | fuel + 1, m =>
    if m < len ∧ ch.getD m 0 = ch.getD (m - 1) 0 then scanUpAux ch len fuel (m + 1) else m

/-- Median `medianCut` on the buffered channel values.  `sort.Sort` only
promises a sorted rearrangement; a sorted permutation of natural numbers is
unique, so `List.insertionSort` is extensionally the Go sort.  Precondition
in the source: the cluster's widest channel has `max > min` (hence at least
two distinct values; `ch[m1-1]` would otherwise read out of range, covered
here by `getD`). -/
def medianCut (vals : List Nat) : Nat :=
  let ch := List.insertionSort (· ≤ ·) vals
  let m1 := ch.length / 2
  if ch.getD m1 0 ≠ ch.getD (m1 - 1) 0 then ch.getD m1 0
  else
    let j1 := scanDown ch (m1 - 1)
    let j2 := scanUpAux ch ch.length (ch.length - (m1 + 1)) (m1 + 1)
    if ch.length - j2 < j1 then ch.getD j1 0 else ch.getD j2 0

/-- Median `split`, low side: the in-place two-pointer scan leaves in `s.px`
exactly the pixels whose widest-channel value is `< m` (in unspecified
order); as a multiset this is the filter below. -/
def splitLow (img : Img) (w : Channel) (m : Nat) (px : List Point) : List Point :=
  px.filter fun p => decide (chVal w (img.At p) < m)

/-- Median `split`, high side: the complementary filter (`v >= m`). -/
def splitHigh (img : Img) (w : Channel) (m : Nat) (px : List Point) : List Point :=
  px.filter fun p => ! decide (chVal w (img.At p) < m)

/-- Median cluster selection.  The `container/heap` priority queue holds
exactly the live clusters that `setWidestChannel` reported splittable, and
`heap.Pop` returns one with the most pixels; this models the pop as the
first maximal-population splittable cluster (returned with its population).
Which maximal cluster wins a population tie is the only freedom the heap
has, and nothing proved below depends on it. -/
def mselectAux (img : Img) : List (List Point) → Option (Nat × Nat)
  | [] => none
  | c :: rest =>
    let r := (mselectAux img rest).map fun ⟨j, pj⟩ => (j + 1, pj)
    if (setWidestChannel img c).2 then
      match r with
      | none => some (0, c.length)
      | some (j, pj) => if pj > c.length then some (j, pj) else some (0, c.length)
    else r

/-- Index of the cluster the median variant splits next, if any. -/
def mselect (img : Img) (cs : List (List Point)) : Option Nat :=
  (mselectAux img cs).map (·.1)

/-- Median `cluster()` loop.  The Go slice `qz.cs` has fixed length `K` with
a live prefix of `i` populated clusters; here the live prefix is the list
`cs` and `fuel = K - cs.length` counts the free slots.  When a split is
selected with no free slot left (`fuel = 0`, only reachable on entry with
`K = 1`), the Go code evaluates `&qz.cs[i]` with `i = len(qz.cs)` and
panics: modelled as `none`.  The split writes the low side back into the
split cluster's slot and populates the next free slot with the high side;
`splits` counts performed splits. -/
def mloop (img : Img) (K : Nat) : Nat → List (List Point) → Nat → Option (List (List Point) × Nat)
  | fuel, cs, splits =>
    match mselect img cs with
    | none => some (cs, splits)
    | some sx =>
      match fuel with
      | 0 => none
      | fuel + 1 =>
        let s := cs.getD sx []
        let w := (setWidestChannel img s).1
        let m := medianCut (chanVals img w s)
        let cs' := cs.set sx (splitLow img w m s) ++ [splitHigh img w m s]
        if cs'.length = K then some (cs', splits + 1)
        else mloop img K fuel cs' (splits + 1)

/-- Median `cluster()`: start from the single initial cluster holding every
pixel; also returns the number of splits performed. -/
def mcluster (img : Img) (K : Nat) : Option (List (List Point) × Nat) :=
  mloop img K (K - 1) [pixelList img] 0

/-- Palette entry produced by `paletted` (Go `color.RGBA`, four `uint8`). -/
structure PalColor where
  r : Nat
  g : Nat
  b : Nat
  a : Nat
deriving DecidableEq, Repr

/-- Average colour of one cluster (`rsum/n64` etc. with `n64 = len(px) << 8`);
`uint8(...)` truncates mod 256.  `int64` sums cannot wrap below 2^47 pixels,
out of modelled range. -/
def avgColor (img : Img) (px : List Point) : PalColor :=
  let rsum := (px.map fun p => (img.At p).r).sum
  let gsum := (px.map fun p => (img.At p).g).sum
  let bsum := (px.map fun p => (img.At p).b).sum
  let n64 := px.length * 256
  ⟨rsum / n64 % 256, gsum / n64 % 256, bsum / n64 % 256, 0xff⟩

/-- Palette colours of `paletted`, cluster by cluster.  For an empty cluster
`n64 = 0` and the Go `rsum / n64` is an integer division by zero, a runtime
panic: modelled as `none`. -/
def palettedColors (img : Img) : List (List Point) → Option (List PalColor)
  | [] => some []
  | px :: rest =>
    if px.length = 0 then none
    else
      match palettedColors img rest with
      | none => none
      | some cps => some (avgColor img px :: cps)

/-- Pixel-index assignments of `paletted`: every pixel of cluster `i` is
stamped with `SetColorIndex(..., uint8(i))`, truncating the index mod 256. -/
def stampList (cs : List (List Point)) : List (Point × Nat) :=
  (cs.mapIdx fun i px => px.map fun p => (p, i % 256)).flatten

/-- Result of `paletted`: the palette plus the per-pixel index assignments
(the paletted image's contents). -/
structure Paletted where
  palette : List PalColor
  pix : List (Point × Nat)
deriving DecidableEq, Repr

/-- Shared `paletted()` of the median and mean quantizers. -/
def paletted (img : Img) (cs : List (List Point)) : Option Paletted :=
  match palettedColors img cs with
  | none => none
  | some cps => some ⟨cps, stampList cs⟩

/-- Median `Quantizer.Quantize`.  For `n < 0`, `make([]cluster, nq)` panics;
for `n = 0`, `&qz.cs[0]` reads out of range in `newQuantizer`; both are
`none`.  Otherwise cluster then build the paletted image. -/
def medianQuantize (img : Img) (n : Int) : Option Paletted :=
  if n < 1 then none
  else
    match mcluster img n.toNat with
    | none => none
    | some (cs, _) => paletted img cs

/-! Mean-cut variant (package `mean`). -/

/-- Mean variant `cluster` record: pixel list plus the statistics stored by
`setPriority`.  `priority` is a Go `int`; the late-phase product
`uint64(priority) * (volume >> 16) >> 29` stays far below 2^63 for any image
of fewer than 2^31 pixels, so `Nat` models it exactly in modelled range. -/
structure MCl where
  px : List Point
  widestCh : Channel
  mn : Nat
  mx : Nat
  volume : Nat
  priority : Nat
deriving DecidableEq, Repr

/-- Zero-valued `cluster` record (a freshly populated slot of `qz.cs` before
`setPriority` runs on it). -/
def freshMCl (px : List Point) : MCl := ⟨px, Channel.wr, 0, 0, 0, 0⟩

/-- Mean `setPriority`: extrema, widest channel, colour volume
`(maxR-minR)*(maxG-minG)*(maxB-minB)`, and the phase-dependent priority
(population early, `population * (volume >> 16) >> 29` late). -/
def setPriority (img : Img) (px : List Point) (early : Bool) : MCl :=
  let e := extents img px
  let r := widestOf e
  let volume := (e.maxR - e.minR) * (e.maxG - e.minG) * (e.maxB - e.minB)
  let priority := if early then px.length else px.length * (volume >>> 16) >>> 29
  ⟨px, r.1, r.2.1, r.2.2, volume, priority⟩

/-- Mean cluster selection: the linear scan
`for x := 0; x <= cx; x++ { if c.max > c.min && c.priority > maxP ... }`,
with `maxP` starting at 0; the first cluster attaining the maximal positive
priority among those with colour variation wins. -/
def meanSelectAux : List MCl → Nat → Nat → Option Nat → Option Nat
  | [], _, _, best => best
  | c :: rest, i, maxP, best =>
    if c.mx > c.mn ∧ c.priority > maxP then meanSelectAux rest (i + 1) c.priority (some i)
    else meanSelectAux rest (i + 1) maxP best

/-- Index of the cluster the mean variant splits next, if any. -/
def meanSelect (cs : List MCl) : Option Nat :=
  meanSelectAux cs 0 0 none

/-- Mean `cutValue`: mean of the widest channel's values; in the early phase
move the cut into the middle of the longer tail of the distribution. -/
def cutValue (img : Img) (c : MCl) (early : Bool) : Nat :=
  let sum := (c.px.map fun p => chVal c.widestCh (img.At p)).sum
  let mean := sum / c.px.length
  if early then
    if c.mx - mean > mean - c.mn then (mean + c.mx) / 2 else (mean + c.mn) / 2
  else mean

/-- Mean `split` predicate: `v < m || m == s.min && v == m` (the boundary
exception keeps the split non-degenerate when the cut lands on the cluster
minimum). -/
def meanSplitPred (img : Img) (w : Channel) (m smin : Nat) (p : Point) : Bool :=
  decide (chVal w (img.At p) < m) || (decide (m = smin) && decide (chVal w (img.At p) = m))

/-- Mean `split`, low side (multiset of the in-place partition, as for the
median variant). -/
def meanSplitLow (img : Img) (w : Channel) (m smin : Nat) (px : List Point) : List Point :=
  px.filter (meanSplitPred img w m smin)

/-- Mean `split`, high side. -/
def meanSplitHigh (img : Img) (w : Channel) (m smin : Nat) (px : List Point) : List Point :=
  px.filter fun p => ! meanSplitPred img w m smin p

/-- Midpoint re-prioritisation: at the early/late phase transition the
clusters at indices `0 .. cx-1` get
`priority = int(uint64(priority) * (volume >> 16) >> 29)`. -/
def reprioritize : List MCl → Nat → List MCl
  | cs, 0 => cs
  | [], _ + 1 => []
  | c :: rest, k + 1 =>
    { c with priority := c.priority * (c.volume >>> 16) >>> 29 } :: reprioritize rest k

/-- Loop-head analysis of the mean `cluster()` loop:
`qz.setPriority(c, cx < half)` on the pending cluster `c = &cs[cx]`, where
`cx = len - 1` indexes the most recently populated slot. -/
def analyzeHead (img : Img) (half : Nat) (cs : List MCl) : List MCl :=
  cs.set (cs.length - 1)
    (setPriority img (cs.getD (cs.length - 1) (freshMCl [])).px (cs.length - 1 < half))

/-- Mean `cluster()` loop.  State: the live prefix `cs` of `qz.cs` whose
last element (index `cx = cs.length - 1`) is populated but not yet analysed;
`fuel = K - cs.length` counts free slots exactly as in `mloop` (`fuel = 0`
with a selected split models the `c = &cs[cx]` out-of-range panic, reachable
only when `cluster` is entered with `K = 1`).  Each iteration analyses the
pending cluster, selects the highest-priority splittable cluster, splits it
at `cutValue`, exits when the slice is full, re-prioritises at the midpoint,
and re-analyses the shrunk cluster `s` (the new cluster stays pending). -/
def meanLoop (img : Img) (K half : Nat) : Nat → List MCl → Nat → Option (List MCl × Nat)
  | fuel, cs, splits =>
    let cx := cs.length - 1
    let cs1 := analyzeHead img half cs
    match meanSelect cs1 with
    | none => some (cs1, splits)
    | some sx =>
      match fuel with
      | 0 => none
      | fuel + 1 =>
        let s := cs1.getD sx (freshMCl [])
        let m := cutValue img s (cx < half)
        let lo := meanSplitLow img s.widestCh m s.mn s.px
        let hi := meanSplitHigh img s.widestCh m s.mn s.px
        let cs2 := cs1.set sx { s with px := lo } ++ [freshMCl hi]
        if cx + 1 = K - 1 then some (cs2, splits + 1)
        else
          let cs3 := if cx + 1 = half then reprioritize cs2 (cx + 1) else cs2
          let cs4 := cs3.set sx (setPriority img lo (cx + 1 < half))
          meanLoop img K half fuel cs4 (splits + 1)

/-- Mean `cluster()` on a quantizer fresh from `newQuantizer` (initial
cluster holds the full pixel list, `half = len(cs)/2`). -/
def meanCluster (img : Img) (K : Nat) : Option (List MCl × Nat) :=
  meanLoop img K (K / 2) (K - 1) [freshMCl (pixelList img)] 0

/-- Mean `Quantizer.Image`: clamp `n` at 256, build the quantizer (`nil`
cluster slice when `n < 1`), cluster only when `n > 1`, then build the
paletted image. -/
def meanImage (img : Img) (n0 : Int) : Option Paletted :=
  let n : Int := if n0 > 256 then 256 else n0
  if n < 1 then paletted img []
  else if n > 1 then
    match meanCluster img n.toNat with
    | none => none
    | some (cs, _) => paletted img (cs.map (·.px))
  else paletted img [pixelList img]

/-! Ditherers (`Dither` of the first quant.go version, `dither211` of the
later versions) and the palette lookup structures. -/

/-- Signed colour triple (source `type sRGB struct{ r, g, b int32 }`),
representing both colour values `0 .. 0xffff` and signed error deltas. -/
structure SRGB where
  r : Int
  g : Int
  b : Int
deriving DecidableEq, Repr

/-- Squared RGB distance of `sPalette.index` (`int64` accumulation; for
in-contract channel values at most `0xffff` the sum is below `2^35`, so
`Int` models the `int64` exactly). -/
def sqDist (c pc : SRGB) : Int :=
  let dr := c.r - pc.r
  let dg := c.g - pc.g
  let db := c.b - pc.b
  dr * dr + dg * dg + db * db

/-- Scan loop of `sPalette.index`: running best index and best (strictly
smallest so far) squared distance; ties keep the earlier entry. -/
def spIndexFrom (c : SRGB) : List SRGB → Nat → Nat → Int → Nat
  | [], _, best, _ => best
  | pc :: rest, j, best, mn =>
    let s := sqDist c pc
    if s < mn then spIndexFrom c rest (j + 1) j s
    else spIndexFrom c rest (j + 1) best mn

/-- `sPalette.index`: linear nearest-colour scan starting from
`i, min := 0, math.MaxInt64`. -/
def spIndex (p : List SRGB) (c : SRGB) : Nat :=
  spIndexFrom c p 0 0 (2 ^ 63 - 1)

/-- Per-channel residual distribution of `dither211` (identical lines in
both versions of the function): half the residual carries right
(`rt = e/2`, Go `int` division truncating toward zero), half of the
remainder is assigned to the next-row buffer cell one column right (the
diagonal), and the rest is added to the cell at the current column
(directly below).  Returns `(right, diagonal, below)`. -/
def dither211Kernel (e : Int) : Int × Int × Int :=
  let rt := e.tdiv 2
  let e1 := e - rt
  let d := e1.tdiv 2
  (rt, d, e1 - d)

/-- Per-channel residual distribution of the unsigned-accumulator `Dither`:
a negative residual is clamped to zero (`if pr > rt { rt = 0 }`), otherwise
`rt = (rt-pr)/2` carries right, and the two next-row cells each get
`rt/2`.  Returns `(right, diagonal, below)` as unsigned magnitudes. -/
def ditherKernel (rtv pr : Nat) : Nat × Nat × Nat :=
  let rt := if pr > rtv then 0 else (rtv - pr) / 2
  (rt, rt / 2, rt / 2)

/-- Unsigned 16-bit clamp of `Dither` (`if r0 > 0xffff { r0 = 0xffff }`). -/
def clamp16 (v : Nat) : Nat := if v > 0xffff then 0xffff else v

/-- Wrapping `uint16` addition used by the `dn[x] += dn[x+1]` accumulation
in `Dither`. -/
def add16 (a b : Nat) : Nat := (a + b) % 65536

/-- State of one `Dither` pass: current carry `rt`, next-row buffer `dn`
(length `w + 1`; the extra cell is the overflow sentinel column), and the
pixel-index assignments written so far. -/
structure DitherState where
  rt : RGB
  dn : List RGB
  out : List (Point × Nat)
deriving Repr

/-- Inner-loop body of `Dither` for one pixel: add the carry to the source
colour, clamp each channel to `0xffff`, look the adjusted colour up in the
palette (the external `color.Palette.Index` is the parameter `cpIndex`),
then distribute the per-channel residual with `ditherKernel`. -/
def ditherPixel (img : Img) (cp : List RGB) (cpIndex : RGB → Nat) (y : Nat)
    (st : DitherState) (x : Nat) : DitherState :=
  let c0 := img.At ⟨x, y⟩
  let rt1 : RGB := ⟨clamp16 (c0.r + st.rt.r), clamp16 (c0.g + st.rt.g), clamp16 (c0.b + st.rt.b)⟩
  let i := cpIndex rt1
  let pc := cp.getD i ⟨0, 0, 0⟩
  let kr := ditherKernel rt1.r pc.r
  let kg := ditherKernel rt1.g pc.g
  let kb := ditherKernel rt1.b pc.b
  let dn1 := st.dn.set (x + 1) ⟨kr.2.1, kg.2.1, kb.2.1⟩
  let cur := dn1.getD x ⟨0, 0, 0⟩
  let dn2 := dn1.set x ⟨add16 cur.r kr.2.2, add16 cur.g kg.2.2, add16 cur.b kb.2.2⟩
  ⟨⟨kr.1, kg.1, kb.1⟩, dn2, st.out ++ [(⟨x, y⟩, i % 256)]⟩

/-- Row body of `Dither`: load the carry from `dn[0]`, zero `dn[0]`, then
process the row's pixels left to right. -/
def ditherRow (img : Img) (cp : List RGB) (cpIndex : RGB → Nat)
    (st : DitherState) (y : Nat) : DitherState :=
  let st1 : DitherState := ⟨st.dn.getD 0 ⟨0, 0, 0⟩, st.dn.set 0 ⟨0, 0, 0⟩, st.out⟩
  (List.range img.w).foldl (ditherPixel img cp cpIndex y) st1

/-- Result of a ditherer: the palette it was given plus the per-pixel
palette-index assignments of the produced `image.Paletted`. -/
structure DitherResult where
  palette : List RGB
  pix : List (Point × Nat)
deriving DecidableEq, Repr

/-- `Dither` (first quant.go version): `nil` result for palettes over 256
entries (modelled `none`), an empty paletted image for zero-area bounds,
otherwise one error-diffusion pass in raster order.  `cpIndex` stands for
the external `color.Palette.Index` collaborator. -/
def Dither (img : Img) (cp : List RGB) (cpIndex : RGB → Nat) : Option DitherResult :=
  if cp.length > 256 then none
  else if img.h = 0 ∨ img.w = 0 then some ⟨cp, []⟩
  else
    let st0 : DitherState := ⟨⟨0, 0, 0⟩, List.replicate (img.w + 1) ⟨0, 0, 0⟩, []⟩
    some ⟨cp, ((List.range img.h).foldl (ditherRow img cp cpIndex) st0).out⟩

/-- State of one `dither211` pass (signed accumulators). -/
structure Dither211State where
  rt : SRGB
  dn : List SRGB
  out : List (Point × Nat)
deriving Repr

/-- Inner-loop body of `dither211` (the `sPalette` version): add the carry
to the source colour (no clamping in this variant), find the nearest
palette entry with `sp.index`, subtract it to get the residual `e`, and
distribute `e` with `dither211Kernel` channel by channel. -/
def dither211Pixel (img : Img) (sp : List SRGB) (y : Nat)
    (st : Dither211State) (x : Nat) : Dither211State :=
  let c0 := img.At ⟨x, y⟩
  let rt1 : SRGB := ⟨st.rt.r + c0.r, st.rt.g + c0.g, st.rt.b + c0.b⟩
  let i := spIndex sp rt1
  let pc := sp.getD i ⟨0, 0, 0⟩
  let kr := dither211Kernel (rt1.r - pc.r)
  let kg := dither211Kernel (rt1.g - pc.g)
  let kb := dither211Kernel (rt1.b - pc.b)
  let dn1 := st.dn.set (x + 1) ⟨kr.2.1, kg.2.1, kb.2.1⟩
  let cur := dn1.getD x ⟨0, 0, 0⟩
  let dn2 := dn1.set x ⟨cur.r + kr.2.2, cur.g + kg.2.2, cur.b + kb.2.2⟩
  ⟨⟨kr.1, kg.1, kb.1⟩, dn2, st.out ++ [(⟨x, y⟩, i % 256)]⟩

/-- Row body of `dither211`: load the carry from `dn[1]`, zero `dn[0]`,
then process the row's pixels left to right. -/
def dither211Row (img : Img) (sp : List SRGB) (st : Dither211State) (y : Nat) : Dither211State :=
  let st1 : Dither211State := ⟨st.dn.getD 1 ⟨0, 0, 0⟩, st.dn.set 0 ⟨0, 0, 0⟩, st.out⟩
  (List.range img.w).foldl (dither211Pixel img sp y) st1

/-- `dither211` (the `sPalette` version): `nil` for palettes over 256
entries, the empty paletted image when the bounds are empty, otherwise one
signed error-diffusion pass using the in-package linear scan
`sPalette.index` on the palette converted to signed triples. -/
def dither211 (img : Img) (cp : List RGB) : Option DitherResult :=
  if cp.length > 256 then none
  else if img.h = 0 ∨ img.w = 0 then some ⟨cp, []⟩
  else
    let sp := cp.map fun c => SRGB.mk c.r c.g c.b
    let st0 : Dither211State := ⟨⟨0, 0, 0⟩, List.replicate (img.w + 1) ⟨0, 0, 0⟩, []⟩
    some ⟨cp, ((List.range img.h).foldl (dither211Row img sp) st0).out⟩

/-! TreePalette (latest quant.go version). -/

/-- Well-formed `TreePalette` node: a leaf stores a palette index and its
colour (`Type TLeaf`), an inner node stores a split axis
(`TSplitR`/`TSplitG`/`TSplitB`), a threshold and two children.  The Go
struct links children by pointer and the search assumes they are non-nil;
the inductive captures exactly the well-formed trees. -/
inductive TreePalette
  | leaf (index : Nat) (color : RGB)
  | node (axis : Channel) (split : Nat) (low : TreePalette) (high : TreePalette)
deriving DecidableEq, Repr

/-- `TreePalette.search` specialised to reporting the reached leaf's
`Index` (what `IndexNear`'s callback captures): descend taking the low
child when the query's axis value is strictly below the threshold,
otherwise the high child. -/
def TreePalette.searchIndex : TreePalette → RGB → Nat
  | .leaf i _, _ => i
  | .node ax s lo hi, c => if chVal ax c < s then lo.searchIndex c else hi.searchIndex c

/-- `TreePalette.IndexNear`: `-1` for a nil tree, otherwise the index of
the leaf reached by `search`. -/
def indexNear : Option TreePalette → RGB → Int
  | none, _ => -1
  | some t, c => (t.searchIndex c : Nat)

/-- Leaves of a `TreePalette` in `ColorPalette` walk order (low before
high), as index/colour pairs. -/
def TreePalette.leaves : TreePalette → List (Nat × RGB)
  | .leaf i c => [(i, c)]
  | .node _ _ lo hi => lo.leaves ++ hi.leaves

/-! Derived notions used by the claim statements. -/

/-- Minimum of a channel as recorded in an extrema record. -/
def extMin (e : Extents) : Channel → Nat
  | .wr => e.minR
  | .wg => e.minG
  | .wb => e.minB

/-- Maximum of a channel as recorded in an extrema record. -/
def extMax (e : Extents) : Channel → Nat
  | .wr => e.maxR
  | .wg => e.maxG
  | .wb => e.maxB

/-- Range (`max - min`) of a channel in an extrema record. -/
def chRange (e : Extents) (ch : Channel) : Nat := extMax e ch - extMin e ch

/-- Number of distinct colours an image contains. -/
def distinctColors (img : Img) : Nat :=
  ((pixelList img).map img.At).toFinset.card

/-- Mean-variant cluster record whose cached widest-channel statistics match
its pixel list (they do for every analysed cluster; `priority` and `volume`
are deliberately not constrained, the midpoint re-prioritisation rewrites
the former). -/
def statsOK (img : Img) (c : MCl) : Prop :=
  (c.widestCh, c.mn, c.mx) = widestOf (extents img c.px)

/-- Signed colour triple within the `RGBA()` channel contract. -/
def SRGBBounded (c : SRGB) : Prop :=
  0 ≤ c.r ∧ c.r ≤ 0xffff ∧ 0 ≤ c.g ∧ c.g ≤ 0xffff ∧ 0 ≤ c.b ∧ c.b ≤ 0xffff

instance (c : SRGB) : Decidable (SRGBBounded c) := by
  unfold SRGBBounded
  infer_instance

/-! Extrema lemmas. -/

theorem extMin_extStep (e : Extents) (c : RGB) (ch : Channel) :
    extMin (extStep e c) ch = if chVal ch c < extMin e ch then chVal ch c else extMin e ch := by
  cases ch <;> rfl

theorem extMax_extStep (e : Extents) (c : RGB) (ch : Channel) :
    extMax (extStep e c) ch = if chVal ch c > extMax e ch then chVal ch c else extMax e ch := by
  cases ch <;> rfl

theorem extMin_foldl_le (img : Img) (ch : Channel) :
    ∀ (px : List Point) (e : Extents),
      extMin (px.foldl (fun e p => extStep e (img.At p)) e) ch ≤ extMin e ch := by
  intro px
  induction px with
  | nil => intro e; exact le_refl _
  | cons p px ih =>
    intro e
    refine le_trans (ih _) ?_
    rw [extMin_extStep]
    split <;> omega

theorem extMax_foldl_ge (img : Img) (ch : Channel) :
    ∀ (px : List Point) (e : Extents),
      extMax e ch ≤ extMax (px.foldl (fun e p => extStep e (img.At p)) e) ch := by
  intro px
  induction px with
  | nil => intro e; exact le_refl _
  | cons p px ih =>
    intro e
    refine le_trans ?_ (ih _)
    rw [extMax_extStep]
    split <;> omega

/-- Every pixel's channel value is bounded below by the computed minimum. -/
theorem extMin_le_val (img : Img) (ch : Channel) :
    ∀ (px : List Point) (e : Extents) (p : Point), p ∈ px →
      extMin (px.foldl (fun e p => extStep e (img.At p)) e) ch ≤ chVal ch (img.At p) := by
  intro px
  induction px with
  | nil => intro e p hp; cases hp
  | cons q px ih =>
    intro e p hp
    rcases List.mem_cons.mp hp with h | h
    · subst h
      refine le_trans (extMin_foldl_le img ch px _) ?_
      rw [extMin_extStep]
      split <;> omega
    · exact ih _ p h

/-- Every pixel's channel value is bounded above by the computed maximum. -/
theorem val_le_extMax (img : Img) (ch : Channel) :
    ∀ (px : List Point) (e : Extents) (p : Point), p ∈ px →
      chVal ch (img.At p) ≤ extMax (px.foldl (fun e p => extStep e (img.At p)) e) ch := by
  intro px
  induction px with
  | nil => intro e p hp; cases hp
  | cons q px ih =>
    intro e p hp
    rcases List.mem_cons.mp hp with h | h
    · subst h
      refine le_trans ?_ (extMax_foldl_ge img ch px _)
      rw [extMax_extStep]
      split <;> omega
    · exact ih _ p h

/-- The computed minimum is the initial seed or an attained channel value. -/
theorem extMin_attained (img : Img) (ch : Channel) :
    ∀ (px : List Point) (e : Extents),
      extMin (px.foldl (fun e p => extStep e (img.At p)) e) ch = extMin e ch ∨
      ∃ p ∈ px, extMin (px.foldl (fun e p => extStep e (img.At p)) e) ch = chVal ch (img.At p) := by
  intro px
  induction px with
  | nil => intro e; exact Or.inl rfl
  | cons q px ih =>
    intro e
    rcases ih (extStep e (img.At q)) with h | ⟨p, hp, h⟩
    · rw [extMin_extStep] at h
      split at h
      · exact Or.inr ⟨q, List.mem_cons_self _ _, h⟩
      · exact Or.inl h
    · exact Or.inr ⟨p, List.mem_cons_of_mem _ hp, h⟩

/-- The computed maximum is the initial seed or an attained channel value. -/
theorem extMax_attained (img : Img) (ch : Channel) :
    ∀ (px : List Point) (e : Extents),
      extMax (px.foldl (fun e p => extStep e (img.At p)) e) ch = extMax e ch ∨
      ∃ p ∈ px, extMax (px.foldl (fun e p => extStep e (img.At p)) e) ch = chVal ch (img.At p) := by
  intro px
  induction px with
  | nil => intro e; exact Or.inl rfl
  | cons q px ih =>
    intro e
    rcases ih (extStep e (img.At q)) with h | ⟨p, hp, h⟩
    · rw [extMax_extStep] at h
      split at h
      · exact Or.inr ⟨q, List.mem_cons_self _ _, h⟩
      · exact Or.inl h
    · exact Or.inr ⟨p, List.mem_cons_of_mem _ hp, h⟩

/-- Structure extensionality for colours. -/
theorem RGB.ext3 {a b : RGB} (hr : a.r = b.r) (hg : a.g = b.g) (hb : a.b = b.b) : a = b := by
  cases a; cases b; simp_all

theorem extents_min_le (img : Img) {px : List Point} {p : Point} (hp : p ∈ px) (ch : Channel) :
    extMin (extents img px) ch ≤ chVal ch (img.At p) :=
  extMin_le_val img ch px ext0 p hp

theorem extents_val_le (img : Img) {px : List Point} {p : Point} (hp : p ∈ px) (ch : Channel) :
    chVal ch (img.At p) ≤ extMax (extents img px) ch :=
  val_le_extMax img ch px ext0 p hp

/-- Channel values stay within the `RGBA()` contract bound. -/
theorem chVal_le_of_wf {img : Img} (hwf : ImgWF img) (p : Point) (ch : Channel) :
    chVal ch (img.At p) ≤ 0xffff := by
  rcases hwf p with ⟨h1, h2, h3⟩
  cases ch <;> simpa [chVal]

/-- For a non-empty, contract-respecting pixel list the computed channel
minimum is attained (the `math.MaxUint32` seed always loses). -/
theorem extents_min_attained (img : Img) (ch : Channel) {px : List Point}
    (hne : px ≠ []) (hwf : ImgWF img) :
    ∃ p ∈ px, extMin (extents img px) ch = chVal ch (img.At p) := by
  rcases extMin_attained img ch px ext0 with h | h
  · rcases List.exists_mem_of_ne_nil px hne with ⟨p, hp⟩
    have h1 := extents_min_le img hp ch
    have h2 := chVal_le_of_wf hwf p ch
    rw [extents] at h1
    rw [h] at h1
    have : extMin ext0 ch ≤ 0xffff := le_trans h1 h2
    cases ch <;> simp [extMin, ext0, u32max] at this
  · exact h

/-- For a non-empty pixel list the computed channel maximum is attained
(if the zero seed survives, every value is zero and so equals it). -/
theorem extents_max_attained (img : Img) (ch : Channel) {px : List Point} (hne : px ≠ []) :
    ∃ p ∈ px, extMax (extents img px) ch = chVal ch (img.At p) := by
  rcases extMax_attained img ch px ext0 with h | h
  · rcases List.exists_mem_of_ne_nil px hne with ⟨p, hp⟩
    have h1 := extents_val_le img hp ch
    rw [extents] at h1
    rw [h] at h1
    have h0 : extMax ext0 ch = 0 := by cases ch <;> rfl
    refine ⟨p, hp, ?_⟩
    rw [extents, h, h0]
    omega
  · exact h

/-! Widest-channel lemmas. -/

/-- The pair stored alongside the chosen channel is that channel's extrema. -/
theorem widestOf_minmax (e : Extents) :
    (widestOf e).2.1 = extMin e (widestOf e).1 ∧ (widestOf e).2.2 = extMax e (widestOf e).1 := by
  unfold widestOf
  split_ifs <;> simp [extMin, extMax]

/-- The chosen channel's range dominates every channel's range. -/
theorem chRange_le_widest (e : Extents) (ch : Channel) :
    chRange e ch ≤ (widestOf e).2.2 - (widestOf e).2.1 := by
  unfold widestOf
  cases ch <;> (simp only [chRange, extMin, extMax]; split_ifs <;> (simp only [] ; omega))

/-- Net tie-breaking effect of the `G`-then-`R`-then-`B` evaluation with
strict-inequality overwrites: blue is chosen only when strictly wider than
both others, red only when strictly wider than green; on equal ranges green
beats red and the green/red winner beats blue. -/
theorem widestOf_net (e : Extents) :
    (widestOf e).1 =
      if chRange e .wb > chRange e .wr ∧ chRange e .wb > chRange e .wg then .wb
      else if chRange e .wr > chRange e .wg then .wr
      else .wg := by
  simp only [chRange, extMin, extMax]
  unfold widestOf
  split_ifs <;> simp_all <;> omega

/-- A cluster whose widest channel shows no variation is monochrome. -/
theorem mono_of_not_splittable {img : Img} {px : List Point}
    (h : (setWidestChannel img px).2 = false) :
    ∀ p ∈ px, ∀ q ∈ px, img.At p = img.At q := by
  intro p hp q hq
  have hw : ¬ ((widestOf (extents img px)).2.2 > (widestOf (extents img px)).2.1) := by
    simpa [setWidestChannel] using h
  have hch : ∀ ch, extMax (extents img px) ch ≤ extMin (extents img px) ch := by
    intro ch
    have := chRange_le_widest (extents img px) ch
    simp only [chRange] at this
    omega
  have key : ∀ ch, chVal ch (img.At p) = chVal ch (img.At q) := by
    intro ch
    have h1 := extents_val_le img hp ch
    have h2 := extents_min_le img hq ch
    have h3 := extents_val_le img hq ch
    have h4 := extents_min_le img hp ch
    have := hch ch
    omega
  exact RGB.ext3 (key .wr) (key .wg) (key .wb)

/-! Sorted-list helpers for the median cut. -/

theorem getD_mem_of_lt {α : Type} {l : List α} {i : Nat} {d : α} (h : i < l.length) :
    l.getD i d ∈ l := by
  rw [List.getD_eq_getElem l d h]
  exact List.getElem_mem h

theorem sorted_getD_mono {l : List Nat} (hs : List.Sorted (· ≤ ·) l) {i j : Nat}
    (hij : i ≤ j) (hj : j < l.length) : l.getD i 0 ≤ l.getD j 0 := by
  rcases Nat.eq_or_lt_of_le hij with rfl | hlt
  · exact le_refl _
  · have hi : i < l.length := lt_trans hlt hj
    rw [List.getD_eq_getElem l 0 hi, List.getD_eq_getElem l 0 hj]
    have := hs.rel_get_of_lt (a := ⟨i, hi⟩) (b := ⟨j, hj⟩) hlt
    simpa using this

theorem two_le_length_of_two_vals {l : List Nat} (hs : List.Sorted (· ≤ ·) l)
    (h2 : ∃ a ∈ l, ∃ b ∈ l, a < b) : 2 ≤ l.length := by
  obtain ⟨a, ha, b, hb, hab⟩ := h2
  obtain ⟨i, hi, rfl⟩ := List.mem_iff_getElem.mp ha
  obtain ⟨j, hj, rfl⟩ := List.mem_iff_getElem.mp hb
  rcases Nat.lt_or_ge i j with h | h
  · omega
  · have : l[j] ≤ l[i] := by
      rw [← List.getD_eq_getElem l 0 hj, ← List.getD_eq_getElem l 0 hi]
      exact sorted_getD_mono hs h hi
    omega

theorem sorted_ends_lt {l : List Nat} (hs : List.Sorted (· ≤ ·) l)
    (h2 : ∃ a ∈ l, ∃ b ∈ l, a < b) : l.getD 0 0 < l.getD (l.length - 1) 0 := by
  obtain ⟨a, ha, b, hb, hab⟩ := h2
  obtain ⟨i, hi, rfl⟩ := List.mem_iff_getElem.mp ha
  obtain ⟨j, hj, rfl⟩ := List.mem_iff_getElem.mp hb
  have h1 : l.getD 0 0 ≤ l[i] := by
    rw [← List.getD_eq_getElem l 0 hi]
    exact sorted_getD_mono hs (Nat.zero_le i) hi
  have h2' : l[j] ≤ l.getD (l.length - 1) 0 := by
    rw [← List.getD_eq_getElem l 0 hj]
    exact sorted_getD_mono hs (by omega) (by omega)
  omega

/-- A sorted position whose left neighbour differs yields both a member and
a strictly smaller member: the generic shape of every `medianCut` return. -/
theorem sorted_pick {ch : List Nat} (hs : List.Sorted (· ≤ ·) ch) {j : Nat}
    (hj1 : 1 ≤ j) (hj2 : j < ch.length) (hne : ch.getD (j - 1) 0 ≠ ch.getD j 0) :
    ch.getD j 0 ∈ ch ∧ ∃ v ∈ ch, v < ch.getD j 0 := by
  refine ⟨getD_mem_of_lt hj2, ch.getD (j - 1) 0, getD_mem_of_lt (by omega), ?_⟩
  have := sorted_getD_mono hs (Nat.sub_le j 1) hj2
  omega

/-! Scan lemmas for `medianCut`. -/

theorem scanDown_le (ch : List Nat) : ∀ m, scanDown ch m ≤ m := by
  intro m
  induction m with
  | zero => exact le_refl _
  | succ m ih =>
    rw [scanDown]
    split
    · omega
    · exact le_refl _

theorem scanDown_zero_or_ne (ch : List Nat) :
    ∀ m, scanDown ch m = 0 ∨ ch.getD (scanDown ch m) 0 ≠ ch.getD (scanDown ch m - 1) 0 := by
  intro m
  induction m with
  | zero => exact Or.inl rfl
  | succ m ih =>
    rw [scanDown]
    split
    · exact ih
    · next h => right; simpa using h

theorem scanDown_chain (ch : List Nat) :
    ∀ m k, scanDown ch m ≤ k → k ≤ m → ch.getD k 0 = ch.getD m 0 := by
  intro m
  induction m with
  | zero =>
    intro k h1 h2
    have hk : k = 0 := by omega
    rw [hk]
  | succ m ih =>
    intro k h1 h2
    rw [scanDown] at h1
    split at h1
    · next heq =>
      rcases Nat.eq_or_lt_of_le h2 with rfl | hk
      · rfl
      · rw [ih k h1 (by omega), heq]
    · have hk : k = m + 1 := by omega
      rw [hk]

theorem scanUpAux_ge (ch : List Nat) (len : Nat) :
    ∀ fuel m, m ≤ scanUpAux ch len fuel m := by
  intro fuel
  induction fuel with
  | zero => intro m; exact le_refl _
  | succ fuel ih =>
    intro m
    rw [scanUpAux]
    split
    · exact le_trans (by omega) (ih (m + 1))
    · exact le_refl _

theorem scanUpAux_le (ch : List Nat) (len : Nat) :
    ∀ fuel m, len ≤ fuel + m → m ≤ len → scanUpAux ch len fuel m ≤ len := by
  intro fuel
  induction fuel with
  | zero => intro m _ h2; exact h2
  | succ fuel ih =>
    intro m h1 h2
    rw [scanUpAux]
    split
    · next h => exact ih (m + 1) (by omega) (by omega)
    · exact h2

theorem scanUpAux_end (ch : List Nat) (len : Nat) :
    ∀ fuel m, len ≤ fuel + m →
      len ≤ scanUpAux ch len fuel m ∨
      ch.getD (scanUpAux ch len fuel m) 0 ≠ ch.getD (scanUpAux ch len fuel m - 1) 0 := by
  intro fuel
  induction fuel with
  | zero => intro m h; left; simpa [scanUpAux] using h
  | succ fuel ih =>
    intro m h
    rw [scanUpAux]
    split
    · exact ih (m + 1) (by omega)
    · next hcond =>
      rcases Nat.lt_or_ge m len with hm | hm
      · right
        intro heq
        exact hcond ⟨hm, heq⟩
      · left; exact hm

theorem scanUpAux_chain (ch : List Nat) (len : Nat) :
    ∀ fuel m k, m - 1 ≤ k → k < scanUpAux ch len fuel m → ch.getD k 0 = ch.getD (m - 1) 0 := by
  intro fuel
  induction fuel with
  | zero =>
    intro m k h1 h2
    rw [scanUpAux] at h2
    have : k = m - 1 := by omega
    rw [this]
  | succ fuel ih =>
    intro m k h1 h2
    rw [scanUpAux] at h2
    split at h2
    · next hcond =>
      rcases Nat.eq_or_lt_of_le h1 with rfl | hk
      · rfl
      · have hkm : m + 1 - 1 ≤ k := by omega
        rw [ih (m + 1) k hkm h2]
        simpa using hcond.2
    · have : k = m - 1 := by omega
      rw [this]

/-- Correctness of `medianCut`: on a value list with at least two distinct
values (the documented `max > min` precondition) the returned cut value is
itself a value of the list and some value lies strictly below it; this is
exactly what makes both sides of the subsequent `split` non-empty. -/
theorem medianCut_spec {vals : List Nat} (h2 : ∃ a ∈ vals, ∃ b ∈ vals, a < b) :
    medianCut vals ∈ vals ∧ ∃ v ∈ vals, v < medianCut vals := by
  have hperm := List.perm_insertionSort (α := Nat) (· ≤ ·) vals
  have hs := List.sorted_insertionSort (α := Nat) (· ≤ ·) vals
  set ch := List.insertionSort (· ≤ ·) vals with hch
  have h2' : ∃ a ∈ ch, ∃ b ∈ ch, a < b := by
    obtain ⟨a, ha, b, hb, hab⟩ := h2
    exact ⟨a, hperm.mem_iff.mpr ha, b, hperm.mem_iff.mpr hb, hab⟩
  suffices h : medianCut vals ∈ ch ∧ ∃ v ∈ ch, v < medianCut vals by
    obtain ⟨hm, v, hv, hlt⟩ := h
    exact ⟨hperm.mem_iff.mp hm, v, hperm.mem_iff.mp hv, hlt⟩
  have hn2 : 2 ≤ ch.length := two_le_length_of_two_vals hs h2'
  have hmc : medianCut vals =
      if ch.getD (ch.length / 2) 0 ≠ ch.getD (ch.length / 2 - 1) 0 then
        ch.getD (ch.length / 2) 0
      else
        if ch.length - scanUpAux ch ch.length (ch.length - (ch.length / 2 + 1)) (ch.length / 2 + 1)
            < scanDown ch (ch.length / 2 - 1) then
          ch.getD (scanDown ch (ch.length / 2 - 1)) 0
        else
          ch.getD (scanUpAux ch ch.length (ch.length - (ch.length / 2 + 1)) (ch.length / 2 + 1)) 0
        := rfl
  set m1 := ch.length / 2 with hm1def
  have hm11 : 1 ≤ m1 := by
    rw [hm1def]
    exact (Nat.le_div_iff_mul_le (by omega)).mpr (by omega)
  have hm1n : m1 < ch.length := by
    rw [hm1def]; exact Nat.div_lt_self (by omega) (by omega)
  rw [hmc]
  split_ifs with hne hcmp
  · exact sorted_pick hs hm11 hm1n (Ne.symm hne)
  · set j1 := scanDown ch (m1 - 1) with hj1def
    have hj11 : 1 ≤ j1 := by omega
    have hj1n : j1 < ch.length := by
      have := scanDown_le ch (m1 - 1)
      omega
    rcases scanDown_zero_or_ne ch (m1 - 1) with h0 | hne1
    · omega
    · exact sorted_pick hs hj11 hj1n (Ne.symm hne1)
  · set j1 := scanDown ch (m1 - 1) with hj1def
    set j2 := scanUpAux ch ch.length (ch.length - (m1 + 1)) (m1 + 1) with hj2def
    have hj2ge : m1 + 1 ≤ j2 := scanUpAux_ge ch ch.length _ _
    have hj2le : j2 ≤ ch.length :=
      scanUpAux_le ch ch.length _ _ (by omega) (by omega)
    have hfuel : ch.length ≤ ch.length - (m1 + 1) + (m1 + 1) := by omega
    by_cases hj2 : j2 = ch.length
    · exfalso
      have hj10 : j1 = 0 := by omega
      have heqm : ch.getD m1 0 = ch.getD (m1 - 1) 0 := by simpa using hne
      have hall : ∀ k, k < ch.length → ch.getD k 0 = ch.getD (m1 - 1) 0 := by
        intro k hk
        rcases le_or_lt k (m1 - 1) with h | h
        · exact scanDown_chain ch (m1 - 1) k (by omega) h
        · have hk1 : m1 + 1 - 1 ≤ k := by omega
          have hk2 : k < j2 := by omega
          have := scanUpAux_chain ch ch.length (ch.length - (m1 + 1)) (m1 + 1) k hk1 hk2
          rw [Nat.add_sub_cancel] at this
          exact this.trans heqm
      have hends := sorted_ends_lt hs h2'
      have e1 := hall 0 (by omega)
      have e2 := hall (ch.length - 1) (by omega)
      omega
    · have hj2n : j2 < ch.length := by omega
      rcases scanUpAux_end ch ch.length (ch.length - (m1 + 1)) (m1 + 1) hfuel with h | hne2
      · omega
      · exact sorted_pick hs (by omega) hj2n (Ne.symm hne2)

/-! Split non-degeneracy, median variant. -/

/-- Under the channel contract the `uint16` buffer copy does not truncate. -/
theorem chanVals_eq_of_wf {img : Img} (hwf : ImgWF img) (w : Channel) (px : List Point) :
    chanVals img w px = px.map fun p => chVal w (img.At p) := by
  unfold chanVals
  refine List.map_congr_left fun p _ => ?_
  exact Nat.mod_eq_of_lt (by have := chVal_le_of_wf hwf p w; omega)

/-- An empty cluster is never splittable. -/
theorem not_splittable_nil (img : Img) : (setWidestChannel img []).2 = false := by
  have h : extents img [] = ext0 := rfl
  simp only [setWidestChannel, h]
  decide

theorem px_ne_nil_of_splittable {img : Img} {px : List Point}
    (h : (setWidestChannel img px).2 = true) : px ≠ [] := by
  intro hnil
  rw [hnil, not_splittable_nil] at h
  cases h

/-- A splittable cluster has two distinct values on its widest channel. -/
theorem two_vals_of_splittable {img : Img} {px : List Point} (hwf : ImgWF img)
    (h : (setWidestChannel img px).2 = true) :
    ∃ a ∈ chanVals img (setWidestChannel img px).1 px,
      ∃ b ∈ chanVals img (setWidestChannel img px).1 px, a < b := by
  have hne := px_ne_nil_of_splittable h
  set w := (setWidestChannel img px).1 with hw
  have hmm := widestOf_minmax (extents img px)
  have hgt : extMin (extents img px) w < extMax (extents img px) w := by
    have h' : ((widestOf (extents img px)).2.2 > (widestOf (extents img px)).2.1) := by
      have : (setWidestChannel img px).2 =
          decide ((widestOf (extents img px)).2.2 > (widestOf (extents img px)).2.1) := rfl
      rw [this] at h
      exact of_decide_eq_true h
    have hw1 : (setWidestChannel img px).1 = (widestOf (extents img px)).1 := rfl
    rw [hw, hw1, ← hmm.1, ← hmm.2]
    exact h'
  obtain ⟨p1, hp1, he1⟩ := extents_min_attained img w hne hwf
  obtain ⟨p2, hp2, he2⟩ := extents_max_attained img w hne
  rw [chanVals_eq_of_wf hwf]
  exact ⟨chVal w (img.At p1), List.mem_map_of_mem _ hp1,
    chVal w (img.At p2), List.mem_map_of_mem _ hp2, by omega⟩

/-- Median split non-degeneracy: splitting a splittable cluster at the
median cut leaves both sides non-empty. -/
theorem medianSplit_nonempty {img : Img} {px : List Point} (hwf : ImgWF img)
    (h : (setWidestChannel img px).2 = true) :
    splitLow img (setWidestChannel img px).1
        (medianCut (chanVals img (setWidestChannel img px).1 px)) px ≠ [] ∧
    splitHigh img (setWidestChannel img px).1
        (medianCut (chanVals img (setWidestChannel img px).1 px)) px ≠ [] := by
  have h2 := two_vals_of_splittable hwf h
  obtain ⟨hmem, v, hv, hlt⟩ := medianCut_spec h2
  rw [chanVals_eq_of_wf hwf] at hmem hv hlt ⊢
  obtain ⟨p2, hp2, he2⟩ := List.mem_map.mp hmem
  obtain ⟨p1, hp1, he1⟩ := List.mem_map.mp hv
  constructor
  · refine List.ne_nil_of_mem (a := p1) ?_
    rw [splitLow, List.mem_filter]
    refine ⟨hp1, ?_⟩
    simp only [decide_eq_true_eq]
    omega
  · refine List.ne_nil_of_mem (a := p2) ?_
    rw [splitHigh, List.mem_filter]
    refine ⟨hp2, ?_⟩
    simp only [Bool.not_eq_eq_eq_not, Bool.not_true, decide_eq_false_iff_not, not_lt]
    omega

/-! Selection lemmas, median variant. -/

theorem mselectAux_some (img : Img) :
    ∀ (cs : List (List Point)) (j pj : Nat), mselectAux img cs = some (j, pj) →
      j < cs.length ∧ (setWidestChannel img (cs.getD j [])).2 = true := by
  intro cs
  induction cs with
  | nil => intro j pj h; cases h
  | cons c rest ih =>
    intro j pj h
    cases hr : mselectAux img rest with
    | none =>
      rw [mselectAux, hr] at h
      simp only [Option.map_none'] at h
      split at h
      · next hsp =>
        obtain ⟨rfl, rfl⟩ : 0 = j ∧ c.length = pj := by
          constructor <;> (cases h; rfl)
        simpa using hsp
      · cases h
    | some jp =>
      obtain ⟨j', pj'⟩ := jp
      rw [mselectAux, hr] at h
      simp only [Option.map_some'] at h
      split at h
      · next hsp =>
        split at h
        · obtain ⟨rfl, rfl⟩ : j' + 1 = j ∧ pj' = pj := by
            constructor <;> (cases h; rfl)
          have := ih j' pj' hr
          simp only [List.length_cons, List.getD_cons_succ]
          exact ⟨by omega, this.2⟩
        · obtain ⟨rfl, rfl⟩ : 0 = j ∧ c.length = pj := by
            constructor <;> (cases h; rfl)
          simpa using hsp
      · obtain ⟨rfl, rfl⟩ : j' + 1 = j ∧ pj' = pj := by
          constructor <;> (cases h; rfl)
        have := ih j' pj' hr
        simp only [List.length_cons, List.getD_cons_succ]
        exact ⟨by omega, this.2⟩

theorem mselect_some {img : Img} {cs : List (List Point)} {sx : Nat}
    (h : mselect img cs = some sx) :
    sx < cs.length ∧ (setWidestChannel img (cs.getD sx [])).2 = true := by
  rw [mselect] at h
  obtain ⟨⟨j, pj⟩, hjp, hj⟩ := Option.map_eq_some'.mp h
  cases hj
  exact mselectAux_some img cs j pj hjp

theorem mselect_none {img : Img} :
    ∀ {cs : List (List Point)}, mselect img cs = none →
      ∀ c ∈ cs, (setWidestChannel img c).2 = false := by
  intro cs
  induction cs with
  | nil => intro _ c hc; cases hc
  | cons c rest ih =>
    intro h c' hc'
    rw [mselect, Option.map_eq_none'] at h
    have hrest : mselectAux img rest = none := by
      cases hr : mselectAux img rest with
      | none => rfl
      | some jp =>
        exfalso
        obtain ⟨j', pj'⟩ := jp
        rw [mselectAux, hr] at h
        simp only [Option.map_some'] at h
        split at h
        · split at h <;> cases h
        · cases h
    have hc : (setWidestChannel img c).2 = false := by
      rw [mselectAux, hrest] at h
      simp only [Option.map_none'] at h
      split at h
      · cases h
      · next hsp => simpa using hsp
    rcases List.mem_cons.mp hc' with rfl | hmem
    · exact hc
    · refine ih ?_ c' hmem
      rw [mselect, hrest]
      rfl

/-! Flattening a split-in-place step is a permutation. -/

theorem flatten_set_append_perm {α : Type} :
    ∀ (cs : List (List α)) (i : Nat), i < cs.length → ∀ (lo hi : List α),
      (lo ++ hi).Perm (cs.getD i []) →
      (List.flatten (cs.set i lo ++ [hi])).Perm cs.flatten := by
  intro cs
  induction cs with
  | nil => intro i hi lo hi' hperm; simp at hi
  | cons c rest ih =>
    intro i hi lo hi' hperm
    cases i with
    | zero =>
      simp only [List.getD_cons_zero] at hperm
      simp only [List.set_cons_zero, List.cons_append, List.flatten_cons, List.flatten_append,
        List.flatten_cons, List.flatten_nil, List.append_nil]
      have s2 : (lo ++ (rest.flatten ++ hi')).Perm (lo ++ (hi' ++ rest.flatten)) :=
        List.Perm.append_left lo List.perm_append_comm
      have s4 : ((lo ++ hi') ++ rest.flatten).Perm (c ++ rest.flatten) :=
        hperm.append_right rest.flatten
      refine s2.trans ?_
      rw [← List.append_assoc]
      exact s4
    | succ i =>
      simp only [List.getD_cons_succ] at hperm
      simp only [List.set_cons_succ, List.cons_append, List.flatten_cons]
      refine List.Perm.append_left c (ih i ?_ lo hi' hperm)
      simp only [List.length_cons] at hi
      omega

/-- The two halves of the median split are a permutation of the cluster. -/
theorem splitLowHigh_perm (img : Img) (w : Channel) (m : Nat) (px : List Point) :
    (splitLow img w m px ++ splitHigh img w m px).Perm px :=
  List.filter_append_perm _ px

/-- The two halves of the mean split are a permutation of the cluster. -/
theorem meanSplitLowHigh_perm (img : Img) (w : Channel) (m smin : Nat) (px : List Point) :
    (meanSplitLow img w m smin px ++ meanSplitHigh img w m smin px).Perm px :=
  List.filter_append_perm _ px

/-- One split step of the median loop preserves the pixel multiset. -/
theorem mstep_flatten_perm (img : Img) (w : Channel) (m : Nat) {cs : List (List Point)}
    {sx : Nat} (hlt : sx < cs.length) :
    (List.flatten (cs.set sx (splitLow img w m (cs.getD sx [])) ++
      [splitHigh img w m (cs.getD sx [])])).Perm cs.flatten :=
  flatten_set_append_perm cs sx hlt _ _ (splitLowHigh_perm img w m _)

/-! Median loop invariants. -/

/-- The median loop permutes, splits and re-groups pixels but never loses or
duplicates one: the flattened result is a permutation of the flattened
input state. -/
theorem mloop_perm (img : Img) (K : Nat) :
    ∀ fuel cs splits res, mloop img K fuel cs splits = some res →
      res.1.flatten.Perm cs.flatten := by
  intro fuel
  induction fuel with
  | zero =>
    intro cs splits res h
    rw [mloop] at h
    cases hsel : mselect img cs with
    | none =>
      rw [hsel] at h
      cases h
      exact List.Perm.refl _
    | some sx =>
      rw [hsel] at h
      cases h
  | succ fuel ih =>
    intro cs splits res h
    rw [mloop] at h
    cases hsel : mselect img cs with
    | none =>
      rw [hsel] at h
      cases h
      exact List.Perm.refl _
    | some sx =>
      rw [hsel] at h
      obtain ⟨hlt, hsp⟩ := mselect_some hsel
      dsimp only at h
      split at h
      · cases h
        exact mstep_flatten_perm img _ _ hlt
      · exact (ih _ _ _ h).trans (mstep_flatten_perm img _ _ hlt)

/-- The median loop never creates an empty cluster from non-empty ones:
every split it performs is of a splittable cluster, and such splits are
non-degenerate. -/
theorem mloop_nonempty (img : Img) (K : Nat) (hwf : ImgWF img) :
    ∀ fuel cs splits res, mloop img K fuel cs splits = some res →
      (∀ c ∈ cs, c ≠ []) → ∀ c ∈ res.1, c ≠ [] := by
  intro fuel
  induction fuel with
  | zero =>
    intro cs splits res h hne
    rw [mloop] at h
    cases hsel : mselect img cs with
    | none => rw [hsel] at h; cases h; exact hne
    | some sx => rw [hsel] at h; cases h
  | succ fuel ih =>
    intro cs splits res h hne
    rw [mloop] at h
    cases hsel : mselect img cs with
    | none => rw [hsel] at h; cases h; exact hne
    | some sx =>
      rw [hsel] at h
      obtain ⟨hlt, hsp⟩ := mselect_some hsel
      obtain ⟨hlo, hhi⟩ := medianSplit_nonempty hwf hsp
      dsimp only at h
      have hne' : ∀ c ∈ cs.set sx (splitLow img (setWidestChannel img (cs.getD sx [])).1
          (medianCut (chanVals img (setWidestChannel img (cs.getD sx [])).1 (cs.getD sx [])))
          (cs.getD sx [])) ++ [splitHigh img (setWidestChannel img (cs.getD sx [])).1
          (medianCut (chanVals img (setWidestChannel img (cs.getD sx [])).1 (cs.getD sx [])))
          (cs.getD sx [])], c ≠ [] := by
        intro c hc
        rcases List.mem_append.mp hc with hc | hc
        · rcases List.mem_or_eq_of_mem_set hc with hc | rfl
          · exact hne c hc
          · exact hlo
        · rw [List.mem_singleton.mp hc]
          exact hhi
      split at h
      · cases h; exact hne'
      · exact ih _ _ _ h hne'

/-- Cluster count bookkeeping of the median loop: the count grows by exactly
the number of splits performed. -/
theorem mloop_len (img : Img) (K : Nat) :
    ∀ fuel cs splits res, mloop img K fuel cs splits = some res →
      res.1.length + splits = cs.length + res.2 ∧ splits ≤ res.2 := by
  intro fuel
  induction fuel with
  | zero =>
    intro cs splits res h
    rw [mloop] at h
    cases hsel : mselect img cs with
    | none => rw [hsel] at h; cases h; dsimp only; omega
    | some sx => rw [hsel] at h; cases h
  | succ fuel ih =>
    intro cs splits res h
    rw [mloop] at h
    cases hsel : mselect img cs with
    | none => rw [hsel] at h; cases h; dsimp only; omega
    | some sx =>
      rw [hsel] at h
      dsimp only at h
      split at h
      · cases h
        simp only [List.length_append, List.length_set, List.length_singleton]
        omega
      · have := ih _ _ _ h
        simp only [List.length_append, List.length_set, List.length_singleton] at this
        omega

/-- The live cluster count of the median loop never exceeds the slot count
`K` (`fuel` is the number of free slots). -/
theorem mloop_le (img : Img) (K : Nat) :
    ∀ fuel cs splits res, mloop img K fuel cs splits = some res →
      fuel + cs.length = K → res.1.length ≤ K := by
  intro fuel
  induction fuel with
  | zero =>
    intro cs splits res h hK
    rw [mloop] at h
    cases hsel : mselect img cs with
    | none => rw [hsel] at h; cases h; dsimp only; omega
    | some sx => rw [hsel] at h; cases h
  | succ fuel ih =>
    intro cs splits res h hK
    rw [mloop] at h
    cases hsel : mselect img cs with
    | none => rw [hsel] at h; cases h; dsimp only; omega
    | some sx =>
      rw [hsel] at h
      dsimp only at h
      split at h
      · next hlen => cases h; dsimp only; omega
      · refine ih _ _ _ h ?_
        simp only [List.length_append, List.length_set, List.length_singleton]
        omega

/-- When the median loop stops, either the slot array is full or no
remaining cluster has colour variation. -/
theorem mloop_term (img : Img) (K : Nat) :
    ∀ fuel cs splits res, mloop img K fuel cs splits = some res →
      res.1.length = K ∨ ∀ c ∈ res.1, (setWidestChannel img c).2 = false := by
  intro fuel
  induction fuel with
  | zero =>
    intro cs splits res h
    rw [mloop] at h
    cases hsel : mselect img cs with
    | none => rw [hsel] at h; cases h; exact Or.inr (mselect_none hsel)
    | some sx => rw [hsel] at h; cases h
  | succ fuel ih =>
    intro cs splits res h
    rw [mloop] at h
    cases hsel : mselect img cs with
    | none => rw [hsel] at h; cases h; exact Or.inr (mselect_none hsel)
    | some sx =>
      rw [hsel] at h
      dsimp only at h
      split at h
      · next hlen => cases h; exact Or.inl hlen
      · exact ih _ _ _ h

/-- With at least one free slot the median loop cannot reach the
out-of-range access: it returns a result. -/
theorem mloop_isSome (img : Img) (K : Nat) :
    ∀ fuel cs splits, fuel + cs.length = K → cs.length < K →
      ∃ res, mloop img K fuel cs splits = some res := by
  intro fuel
  induction fuel with
  | zero => intro cs splits hK hlt; omega
  | succ fuel ih =>
    intro cs splits hK hlt
    rw [mloop]
    cases hsel : mselect img cs with
    | none => exact ⟨(cs, splits), rfl⟩
    | some sx =>
      dsimp only
      split
      · exact ⟨_, rfl⟩
      · next hlen =>
        refine ih _ (splits + 1) ?_ ?_
        · simp only [List.length_append, List.length_set, List.length_singleton]
          omega
        · simp only [List.length_append, List.length_set, List.length_singleton] at hlen ⊢
          omega

/-! Selection lemmas, mean variant. -/

/-- A scan that already holds a candidate always returns one. -/
theorem meanSelectAux_some_of_best :
    ∀ (cs : List MCl) (i maxP j : Nat), meanSelectAux cs i maxP (some j) ≠ none := by
  intro cs
  induction cs with
  | nil => intro i maxP j h; cases h
  | cons c rest ih =>
    intro i maxP j h
    rw [meanSelectAux] at h
    split at h
    · exact ih _ _ _ h
    · exact ih _ _ _ h

/-- A `none` scan result means no cluster beats the running priority bar. -/
theorem meanSelectAux_none :
    ∀ (cs : List MCl) (i maxP : Nat), meanSelectAux cs i maxP none = none →
      ∀ c ∈ cs, ¬(c.mx > c.mn ∧ c.priority > maxP) := by
  intro cs
  induction cs with
  | nil => intro i maxP _ c hc; cases hc
  | cons c rest ih =>
    intro i maxP h c' hc'
    rw [meanSelectAux] at h
    split at h
    · exact absurd h (meanSelectAux_some_of_best _ _ _ _)
    · next hcond =>
      rcases List.mem_cons.mp hc' with rfl | hmem
      · exact hcond
      · exact ih _ _ h c' hmem

/-- A successful scan returns either its incoming candidate or the index of
a cluster that is splittable with priority above the bar. -/
theorem meanSelectAux_spec (d : MCl) :
    ∀ (cs : List MCl) (i maxP : Nat) (best : Option Nat) (sx : Nat),
      meanSelectAux cs i maxP best = some sx →
      best = some sx ∨ ∃ k, k < cs.length ∧ sx = i + k ∧
        (cs.getD k d).mx > (cs.getD k d).mn ∧ (cs.getD k d).priority > maxP := by
  intro cs
  induction cs with
  | nil => intro i maxP best sx h; exact Or.inl h
  | cons c rest ih =>
    intro i maxP best sx h
    rw [meanSelectAux] at h
    split at h
    · next hcond =>
      rcases ih (i + 1) c.priority (some i) sx h with hbest | ⟨k, hk, rfl, hgt, hpr⟩
      · cases hbest
        exact Or.inr ⟨0, by simp, by omega, by simpa using hcond⟩
      · refine Or.inr ⟨k + 1, ?_, by omega, ?_, ?_⟩
        · simp only [List.length_cons]; omega
        · simpa using hgt
        · simp only [List.getD_cons_succ]; omega
    · next hcond =>
      rcases ih (i + 1) maxP best sx h with hbest | ⟨k, hk, rfl, hgt, hpr⟩
      · exact Or.inl hbest
      · refine Or.inr ⟨k + 1, ?_, by omega, ?_, ?_⟩
        · simp only [List.length_cons]; omega
        · simpa using hgt
        · simpa using hpr

/-- Facts about a successful mean selection: valid index, colour variation,
strictly positive priority. -/
theorem meanSelect_some {cs : List MCl} {sx : Nat} (h : meanSelect cs = some sx) :
    sx < cs.length ∧ (cs.getD sx (freshMCl [])).mx > (cs.getD sx (freshMCl [])).mn ∧
      (cs.getD sx (freshMCl [])).priority > 0 := by
  rcases meanSelectAux_spec (freshMCl []) cs 0 0 none sx h with hbest | ⟨k, hk, hsx, hgt, hpr⟩
  · cases hbest
  · rw [hsx]
    simp only [Nat.zero_add]
    exact ⟨hk, hgt, hpr⟩

/-- A failed mean selection means every cluster is monochrome-ranged or has
zero priority. -/
theorem meanSelect_none {cs : List MCl} (h : meanSelect cs = none) :
    ∀ c ∈ cs, ¬(c.mx > c.mn ∧ c.priority > 0) :=
  meanSelectAux_none cs 0 0 h

/-! Cached-statistics lemmas, mean variant. -/

theorem setPriority_px (img : Img) (px : List Point) (e : Bool) :
    (setPriority img px e).px = px := rfl

theorem statsOK_setPriority (img : Img) (px : List Point) (e : Bool) :
    statsOK img (setPriority img px e) := by
  simp [statsOK, setPriority]

theorem widestOf_extents_nil (img : Img) : widestOf (extents img []) = (Channel.wg, u32max, 0) := by
  have h : extents img [] = ext0 := rfl
  rw [h]
  decide

/-- An eligible cluster (colour variation on the widest channel) has
pixels. -/
theorem px_ne_nil_of_eligible {img : Img} {c : MCl} (hok : statsOK img c)
    (hgt : c.mx > c.mn) : c.px ≠ [] := by
  intro hnil
  rw [statsOK, hnil, widestOf_extents_nil] at hok
  have h2 : c.mn = u32max := congrArg (fun t => t.2.1) hok
  have h3 : c.mx = 0 := congrArg (fun t => t.2.2) hok
  rw [h2, h3] at hgt
  simp [u32max] at hgt

/-! Mean cut-value bounds and split non-degeneracy. -/

theorem list_sum_le {l : List Nat} {a : Nat} (h : ∀ v ∈ l, v ≤ a) : l.sum ≤ l.length * a := by
  induction l with
  | nil => simp
  | cons v l ih =>
    simp only [List.sum_cons, List.length_cons]
    have h1 : v ≤ a := h v (List.mem_cons_self _ _)
    have h2 := ih fun w hw => h w (List.mem_cons_of_mem _ hw)
    calc v + l.sum ≤ a + l.length * a := by omega
      _ = (l.length + 1) * a := by ring

theorem le_list_sum {l : List Nat} {a : Nat} (h : ∀ v ∈ l, a ≤ v) : l.length * a ≤ l.sum := by
  induction l with
  | nil => simp
  | cons v l ih =>
    simp only [List.sum_cons, List.length_cons]
    have h1 : a ≤ v := h v (List.mem_cons_self _ _)
    have h2 := ih fun w hw => h w (List.mem_cons_of_mem _ hw)
    calc (l.length + 1) * a = a + l.length * a := by ring
      _ ≤ v + l.sum := by omega

/-- The mean of the widest channel, and both early-phase tail midpoints,
lie within the cluster's cached `[min, max]` range. -/
theorem cutValue_bounds {img : Img} {c : MCl} (hok : statsOK img c) (hne : c.px ≠ [])
    (e : Bool) : c.mn ≤ cutValue img c e ∧ cutValue img c e ≤ c.mx := by
  have hw : c.widestCh = (widestOf (extents img c.px)).1 := congrArg (fun t => t.1) hok
  have hmn : c.mn = (widestOf (extents img c.px)).2.1 := congrArg (fun t => t.2.1) hok
  have hmx : c.mx = (widestOf (extents img c.px)).2.2 := congrArg (fun t => t.2.2) hok
  obtain ⟨hmm1, hmm2⟩ := widestOf_minmax (extents img c.px)
  have hmn' : c.mn = extMin (extents img c.px) c.widestCh := by rw [hmn, hmm1, ← hw]
  have hmx' : c.mx = extMax (extents img c.px) c.widestCh := by rw [hmx, hmm2, ← hw]
  have hlen : 0 < c.px.length := List.length_pos.mpr hne
  have hlb : ∀ v ∈ c.px.map fun p => chVal c.widestCh (img.At p), c.mn ≤ v := by
    intro v hv
    obtain ⟨p, hp, rfl⟩ := List.mem_map.mp hv
    rw [hmn']
    exact extents_min_le img hp c.widestCh
  have hub : ∀ v ∈ c.px.map fun p => chVal c.widestCh (img.At p), v ≤ c.mx := by
    intro v hv
    obtain ⟨p, hp, rfl⟩ := List.mem_map.mp hv
    rw [hmx']
    exact extents_val_le img hp c.widestCh
  have hsum1 := le_list_sum hlb
  have hsum2 := list_sum_le hub
  rw [List.length_map] at hsum1 hsum2
  have hmean1 : c.mn ≤ (c.px.map fun p => chVal c.widestCh (img.At p)).sum / c.px.length :=
    (Nat.le_div_iff_mul_le hlen).mpr (by rw [Nat.mul_comm]; exact hsum1)
  have hmean2 : (c.px.map fun p => chVal c.widestCh (img.At p)).sum / c.px.length ≤ c.mx := by
    have h1 : (c.px.map fun p => chVal c.widestCh (img.At p)).sum / c.px.length ≤
        c.px.length * c.mx / c.px.length := Nat.div_le_div_right hsum2
    rwa [Nat.mul_div_cancel_left _ hlen] at h1
  rw [cutValue]
  split
  · split <;> constructor <;> omega
  · exact ⟨hmean1, hmean2⟩

/-- Mean split non-degeneracy: splitting an eligible, correctly-analysed
cluster at `cutValue` (with the `m == s.min` boundary exception) leaves
both sides non-empty. -/
theorem meanSplit_nonempty {img : Img} {c : MCl} (hwf : ImgWF img) (hok : statsOK img c)
    (hgt : c.mx > c.mn) (e : Bool) :
    meanSplitLow img c.widestCh (cutValue img c e) c.mn c.px ≠ [] ∧
    meanSplitHigh img c.widestCh (cutValue img c e) c.mn c.px ≠ [] := by
  have hne := px_ne_nil_of_eligible hok hgt
  obtain ⟨hb1, hb2⟩ := cutValue_bounds hok hne e
  have hw : c.widestCh = (widestOf (extents img c.px)).1 := congrArg (fun t => t.1) hok
  have hmn : c.mn = (widestOf (extents img c.px)).2.1 := congrArg (fun t => t.2.1) hok
  have hmx : c.mx = (widestOf (extents img c.px)).2.2 := congrArg (fun t => t.2.2) hok
  obtain ⟨hmm1, hmm2⟩ := widestOf_minmax (extents img c.px)
  have hmn' : c.mn = extMin (extents img c.px) c.widestCh := by rw [hmn, hmm1, ← hw]
  have hmx' : c.mx = extMax (extents img c.px) c.widestCh := by rw [hmx, hmm2, ← hw]
  obtain ⟨p1, hp1, he1⟩ := extents_min_attained img c.widestCh hne hwf
  obtain ⟨p2, hp2, he2⟩ := extents_max_attained img c.widestCh hne
  rw [← hmn'] at he1
  rw [← hmx'] at he2
  constructor
  · refine List.ne_nil_of_mem (a := p1) ?_
    rw [meanSplitLow, List.mem_filter]
    refine ⟨hp1, ?_⟩
    simp only [meanSplitPred, Bool.or_eq_true, Bool.and_eq_true, decide_eq_true_eq]
    omega
  · refine List.ne_nil_of_mem (a := p2) ?_
    rw [meanSplitHigh, List.mem_filter]
    refine ⟨hp2, ?_⟩
    simp only [meanSplitPred, Bool.not_eq_true', Bool.or_eq_false_iff, Bool.and_eq_false_iff,
      decide_eq_false_iff_not, not_lt]
    omega

/-! List access utilities for the mean loop. -/

theorem getD_set_self {α : Type} (l : List α) {i : Nat} (x d : α) (h : i < l.length) :
    (l.set i x).getD i d = x := by
  rw [List.getD_eq_getElem _ d (by simpa using h)]
  exact List.getElem_set_self _

theorem getD_set_ne {α : Type} (l : List α) {i j : Nat} (x d : α) (hne : i ≠ j) :
    (l.set i x).getD j d = l.getD j d := by
  rcases Nat.lt_or_ge j l.length with hj | hj
  · rw [List.getD_eq_getElem _ d (by simpa using hj), List.getD_eq_getElem _ d hj]
    exact List.getElem_set_ne hne _
  · rw [List.getD_eq_default _ d (by simpa using hj), List.getD_eq_default _ d hj]

theorem getD_append_left {α : Type} (l1 l2 : List α) {j : Nat} (d : α) (h : j < l1.length) :
    (l1 ++ l2).getD j d = l1.getD j d := by
  rw [List.getD_eq_getElem _ d (by simp; omega), List.getD_eq_getElem _ d h]
  exact List.getElem_append_left ..

theorem set_getD_self {α : Type} : ∀ (l : List α) (i : Nat) (d : α), l.set i (l.getD i d) = l := by
  intro l
  induction l with
  | nil => intro i d; rfl
  | cons a l ih =>
    intro i d
    cases i with
    | zero => rfl
    | succ i => simpa using ih i d

theorem getD_map_px (cs : List MCl) (i : Nat) :
    (cs.map (fun c => c.px)).getD i [] = (cs.getD i (freshMCl [])).px := by
  rcases Nat.lt_or_ge i cs.length with hi | hi
  · rw [List.getD_eq_getElem _ _ (by simpa using hi), List.getD_eq_getElem _ _ hi]
    simp
  · rw [List.getD_eq_default _ _ (by simpa using hi), List.getD_eq_default _ _ hi]
    rfl

/-! Re-prioritisation preserves everything but priorities. -/

/-- Two cluster records with the same pixel list and cached widest-channel
statistics. -/
def sameStats (a b : MCl) : Prop :=
  a.px = b.px ∧ a.widestCh = b.widestCh ∧ a.mn = b.mn ∧ a.mx = b.mx

theorem sameStats_refl (a : MCl) : sameStats a a := ⟨rfl, rfl, rfl, rfl⟩

theorem statsOK_of_sameStats {img : Img} {a b : MCl} (h : sameStats a b)
    (hok : statsOK img b) : statsOK img a := by
  obtain ⟨h1, h2, h3, h4⟩ := h
  rw [statsOK, h1, h2, h3, h4]
  exact hok

theorem reprioritize_length : ∀ (cs : List MCl) (k : Nat), (reprioritize cs k).length = cs.length := by
  intro cs
  induction cs with
  | nil => intro k; cases k <;> rfl
  | cons c rest ih =>
    intro k
    cases k with
    | zero => rfl
    | succ k =>
      show (_ :: reprioritize rest k).length = rest.length + 1
      simp [ih k]

theorem reprioritize_px : ∀ (cs : List MCl) (k : Nat),
    (reprioritize cs k).map (fun c => c.px) = cs.map (fun c => c.px) := by
  intro cs
  induction cs with
  | nil => intro k; cases k <;> rfl
  | cons c rest ih =>
    intro k
    cases k with
    | zero => rfl
    | succ k =>
      show c.px :: (reprioritize rest k).map (fun c => c.px) = c.px :: rest.map (fun c => c.px)
      rw [ih k]

theorem reprioritize_sameStats :
    ∀ (cs : List MCl) (k i : Nat) (d : MCl),
      sameStats ((reprioritize cs k).getD i d) (cs.getD i d) := by
  intro cs
  induction cs with
  | nil => intro k i d; cases k <;> exact sameStats_refl _
  | cons c rest ih =>
    intro k i d
    cases k with
    | zero => exact sameStats_refl _
    | succ k =>
      cases i with
      | zero => exact ⟨rfl, rfl, rfl, rfl⟩
      | succ i => exact ih k i d

theorem reprioritize_mem :
    ∀ (cs : List MCl) (k : Nat) (c : MCl), c ∈ reprioritize cs k → ∃ c' ∈ cs, c.px = c'.px := by
  intro cs
  induction cs with
  | nil => intro k c hc; cases k <;> cases hc
  | cons a rest ih =>
    intro k c hc
    cases k with
    | zero => exact ⟨c, hc, rfl⟩
    | succ k =>
      rcases List.mem_cons.mp hc with rfl | hc
      · exact ⟨a, List.mem_cons_self _ _, rfl⟩
      · obtain ⟨c', hc', h⟩ := ih k c hc
        exact ⟨c', List.mem_cons_of_mem _ hc', h⟩

/-- A cluster whose cached widest-channel statistics are current and show no
colour variation is monochrome (mean-variant counterpart of
`mono_of_not_splittable`). -/
theorem mono_of_not_eligible {img : Img} {c : MCl} (hok : statsOK img c)
    (hle : c.mx ≤ c.mn) : ∀ p ∈ c.px, ∀ q ∈ c.px, img.At p = img.At q := by
  intro p hp q hq
  have hmn : c.mn = (widestOf (extents img c.px)).2.1 := congrArg (fun t => t.2.1) hok
  have hmx : c.mx = (widestOf (extents img c.px)).2.2 := congrArg (fun t => t.2.2) hok
  have hch : ∀ ch, extMax (extents img c.px) ch ≤ extMin (extents img c.px) ch := by
    intro ch
    have := chRange_le_widest (extents img c.px) ch
    simp only [chRange] at this
    omega
  have key : ∀ ch, chVal ch (img.At p) = chVal ch (img.At q) := by
    intro ch
    have h1 := extents_val_le img hp ch
    have h2 := extents_min_le img hq ch
    have h3 := extents_val_le img hq ch
    have h4 := extents_min_le img hp ch
    have := hch ch
    omega
  exact RGB.ext3 (key .wr) (key .wg) (key .wb)

/-- Cached-statistics invariant of the mean loop: every cluster except
possibly the pending last one has current statistics. -/
def StatsInv (img : Img) (cs : List MCl) : Prop :=
  ∀ i, i + 1 < cs.length → statsOK img (cs.getD i (freshMCl []))

/-- After the loop head re-analyses the pending cluster, all statistics are
current. -/
theorem statsAll_head {img : Img} {half : Nat} {cs : List MCl} (hinv : StatsInv img cs) :
    ∀ i, i < cs.length → statsOK img ((analyzeHead img half cs).getD i (freshMCl [])) := by
  intro i hi
  rw [analyzeHead]
  by_cases hcx : i = cs.length - 1
  · subst hcx
    rw [getD_set_self _ _ _ (by omega)]
    exact statsOK_setPriority img _ _
  · rw [getD_set_ne _ _ _ (fun h => hcx h.symm)]
    exact hinv i (by omega)

/-- Membership form of `statsAll_head`. -/
theorem statsAll_head_mem {img : Img} {half : Nat} {cs : List MCl} (hinv : StatsInv img cs) :
    ∀ c ∈ analyzeHead img half cs, statsOK img c := by
  intro c hc
  obtain ⟨i, hi, rfl⟩ := List.mem_iff_getElem.mp hc
  rw [← List.getD_eq_getElem _ (freshMCl []) hi]
  exact statsAll_head hinv i (by simpa [analyzeHead] using hi)

/-- Re-analysing the pending cluster does not change any pixel list. -/
theorem pxs_head (img : Img) (half : Nat) (cs : List MCl) :
    (analyzeHead img half cs).map (fun c => c.px) = cs.map (fun c => c.px) := by
  rw [analyzeHead, List.map_set, setPriority_px, ← getD_map_px, set_getD_self]

/-- Length of the analysed head state. -/
theorem analyzeHead_length (img : Img) (half : Nat) (cs : List MCl) :
    (analyzeHead img half cs).length = cs.length := by
  rw [analyzeHead, List.length_set]

/-- Membership in the analysed head state, pixel-list level. -/
theorem analyzeHead_mem {img : Img} {half : Nat} {cs : List MCl} (hne : cs ≠ []) (c : MCl)
    (hc : c ∈ analyzeHead img half cs) : ∃ c' ∈ cs, c.px = c'.px := by
  rw [analyzeHead] at hc
  rcases List.mem_or_eq_of_mem_set hc with hc | rfl
  · exact ⟨c, hc, rfl⟩
  · have hlen : 0 < cs.length := List.length_pos.mpr hne
    exact ⟨cs.getD (cs.length - 1) (freshMCl []), getD_mem_of_lt (by omega), setPriority_px ..⟩

/-- Pixel lists of the state after a mean split step. -/
theorem mean_step_pxs_eq (cs1 : List MCl) (sx : Nat) (lo hi : List Point) :
    ((cs1.set sx { cs1.getD sx (freshMCl []) with px := lo } ++ [freshMCl hi]).map
        (fun c => c.px)) =
      (cs1.map (fun c => c.px)).set sx lo ++ [hi] := by
  rw [List.map_append, List.map_set]
  rfl

/-- A mean split step preserves the pixel multiset. -/
theorem mean_step_flatten_perm {cs1 : List MCl} {sx : Nat} (hlt : sx < cs1.length)
    (lo hi : List Point) (hperm : (lo ++ hi).Perm ((cs1.getD sx (freshMCl [])).px)) :
    (((cs1.set sx { cs1.getD sx (freshMCl []) with px := lo } ++ [freshMCl hi]).map
        (fun c => c.px)).flatten).Perm
      ((cs1.map (fun c => c.px)).flatten) := by
  rw [mean_step_pxs_eq]
  refine flatten_set_append_perm _ sx (by simpa using hlt) lo hi ?_
  rw [getD_map_px]
  exact hperm

/-- The split slot of the post-split state holds the low side. -/
theorem cs2_getD_sx {cs1 : List MCl} {sx : Nat} (hlt : sx < cs1.length) (lo hi : List Point) :
    ((cs1.set sx { cs1.getD sx (freshMCl []) with px := lo } ++ [freshMCl hi]).getD sx
        (freshMCl [])) =
      { cs1.getD sx (freshMCl []) with px := lo } := by
  rw [getD_append_left _ _ _ (by simpa using hlt)]
  exact getD_set_self _ _ _ (by simpa using hlt)

/-- Membership in the post-split state. -/
theorem cs2_mem {cs1 : List MCl} {sx : Nat} {lo hi : List Point} (c : MCl)
    (hc : c ∈ cs1.set sx { cs1.getD sx (freshMCl []) with px := lo } ++ [freshMCl hi]) :
    c ∈ cs1 ∨ c = { cs1.getD sx (freshMCl []) with px := lo } ∨ c = freshMCl hi := by
  rcases List.mem_append.mp hc with hc | hc
  · rcases List.mem_or_eq_of_mem_set hc with hc | rfl
    · exact Or.inl hc
    · exact Or.inr (Or.inl rfl)
  · exact Or.inr (Or.inr (List.mem_singleton.mp hc))

/-- Re-setting the split slot with its freshly analysed record keeps all
pixel lists unchanged. -/
theorem pxs_set_setPriority (img : Img) (cs : List MCl) (sx : Nat) (lo : List Point) (e : Bool)
    (h : (cs.getD sx (freshMCl [])).px = lo) :
    (cs.set sx (setPriority img lo e)).map (fun c => c.px) = cs.map (fun c => c.px) := by
  rw [List.map_set, setPriority_px, ← h, ← getD_map_px, set_getD_self]

/-- The cached-statistics invariant holds for the state the mean loop
recurses on: the split slot was just re-analysed, the new cluster is the
pending last, and every other slot kept its statistics. -/
theorem statsInv_post {img : Img} {cs1 cs3 : List MCl} {sx : Nat} (hlt : sx < cs1.length)
    (hall : ∀ i, i < cs1.length → statsOK img (cs1.getD i (freshMCl [])))
    (lo hi : List Point) (hlen3 : cs3.length = cs1.length + 1)
    (hsame : ∀ i d, sameStats (cs3.getD i d)
      ((cs1.set sx { cs1.getD sx (freshMCl []) with px := lo } ++ [freshMCl hi]).getD i d))
    (e : Bool) :
    StatsInv img (cs3.set sx (setPriority img lo e)) := by
  intro i hi'
  have hi1 : i < cs1.length := by
    rw [List.length_set, hlen3] at hi'
    omega
  by_cases hisx : i = sx
  · subst hisx
    rw [getD_set_self _ _ _ (by omega)]
    exact statsOK_setPriority img lo e
  · rw [getD_set_ne _ _ _ (fun hh => hisx hh.symm)]
    refine statsOK_of_sameStats (hsame i _) ?_
    rw [getD_append_left _ _ _ (by simpa using hi1),
      getD_set_ne _ _ _ (fun hh => hisx hh.symm)]
    exact hall i hi1

/-- Conclusions available when the mean loop returns through the
no-splittable-cluster branch. -/
theorem meanLoop_none_case {img : Img} {half : Nat} {cs : List MCl}
    (hinv : StatsInv img cs) (hne : cs ≠ [])
    (hsel : meanSelect (analyzeHead img half cs) = none) :
    (((analyzeHead img half cs).map (fun c => c.px)).flatten).Perm
        ((cs.map (fun c => c.px)).flatten) ∧
    ((∀ c ∈ cs, c.px ≠ []) → ∀ c ∈ analyzeHead img half cs, c.px ≠ []) ∧
    (analyzeHead img half cs).length = cs.length ∧
    (∀ c ∈ analyzeHead img half cs,
      (∀ p ∈ c.px, ∀ q ∈ c.px, img.At p = img.At q) ∨ c.priority = 0) := by
  refine ⟨by rw [pxs_head], ?_, analyzeHead_length img half cs, ?_⟩
  · intro h1 c hc
    obtain ⟨c', hc', hpx⟩ := analyzeHead_mem hne c hc
    rw [hpx]
    exact h1 c' hc'
  · intro c hc
    have hok := statsAll_head_mem hinv c hc
    have hne2 := meanSelect_none hsel c hc
    by_cases hpr : c.priority = 0
    · exact Or.inr hpr
    · exact Or.inl (mono_of_not_eligible hok (by omega))

/-- Main invariant bundle of the mean `cluster()` loop, proved by one
induction on the remaining free slots: the pixel multiset is preserved; all
clusters stay non-empty; the cluster count grows by exactly the number of
splits; the count never exceeds `K`; and on exit either the slot array is
full or every cluster is monochrome or priority-starved. -/
theorem meanLoop_main (img : Img) (K half : Nat) (hwf : ImgWF img) :
    ∀ fuel cs splits res, meanLoop img K half fuel cs splits = some res →
      StatsInv img cs → cs ≠ [] →
      ((res.1.map (fun c => c.px)).flatten).Perm ((cs.map (fun c => c.px)).flatten) ∧
      ((∀ c ∈ cs, c.px ≠ []) → ∀ c ∈ res.1, c.px ≠ []) ∧
      (res.1.length + splits = cs.length + res.2 ∧ splits ≤ res.2) ∧
      (fuel + cs.length = K → res.1.length ≤ K) ∧
      (res.1.length = K ∨
        ∀ c ∈ res.1, (∀ p ∈ c.px, ∀ q ∈ c.px, img.At p = img.At q) ∨ c.priority = 0) := by
  intro fuel
  induction fuel with
  | zero =>
    intro cs splits res h hinv hne
    rw [meanLoop] at h
    cases hsel : meanSelect (analyzeHead img half cs) with
    | none =>
      rw [hsel] at h
      cases h
      obtain ⟨hp, hn, hl, ht⟩ := meanLoop_none_case hinv hne hsel
      exact ⟨hp, hn, by dsimp only; omega, by dsimp only; omega, Or.inr ht⟩
    | some sx =>
      rw [hsel] at h
      cases h
  | succ fuel ih =>
    intro cs splits res h hinv hne
    rw [meanLoop] at h
    cases hsel : meanSelect (analyzeHead img half cs) with
    | none =>
      rw [hsel] at h
      cases h
      obtain ⟨hp, hn, hl, ht⟩ := meanLoop_none_case hinv hne hsel
      exact ⟨hp, hn, by dsimp only; omega, by dsimp only; omega, Or.inr ht⟩
    | some sx =>
      rw [hsel] at h
      dsimp only at h
      obtain ⟨hlt, hgt, hpr⟩ := meanSelect_some hsel
      have hlt1 : sx < cs.length := by rwa [analyzeHead_length] at hlt
      have hok : statsOK img ((analyzeHead img half cs).getD sx (freshMCl [])) := by
        exact statsAll_head hinv sx hlt1
      have hcslen : 0 < cs.length := List.length_pos.mpr hne
      obtain ⟨hlo, hhi⟩ := meanSplit_nonempty hwf hok hgt (decide (cs.length - 1 < half))
      set s := (analyzeHead img half cs).getD sx (freshMCl []) with hsdef
      set m := cutValue img s (decide (cs.length - 1 < half)) with hmdef
      set lo := meanSplitLow img s.widestCh m s.mn s.px with hlodef
      set hi2 := meanSplitHigh img s.widestCh m s.mn s.px with hhidef
      set cs2 := (analyzeHead img half cs).set sx { s with px := lo } ++ [freshMCl hi2]
        with hcs2def
      have hperm2 : (lo ++ hi2).Perm s.px := by
        rw [hlodef, hhidef, hmdef]
        exact meanSplitLowHigh_perm img s.widestCh _ s.mn s.px
      have hstep : ((cs2.map (fun c => c.px)).flatten).Perm
          (((analyzeHead img half cs).map (fun c => c.px)).flatten) := by
        rw [hcs2def]
        exact mean_step_flatten_perm hlt lo hi2 hperm2
      have hstepcs : ((cs2.map (fun c => c.px)).flatten).Perm
          ((cs.map (fun c => c.px)).flatten) := by
        refine hstep.trans ?_
        rw [pxs_head]
      have hlen2 : cs2.length = cs.length + 1 := by
        rw [hcs2def]
        simp [analyzeHead_length]
      have hmem2 : (∀ c ∈ cs, c.px ≠ []) → ∀ c ∈ cs2, c.px ≠ [] := by
        intro h1 c hc
        rw [hcs2def] at hc
        rcases cs2_mem c hc with hc | rfl | rfl
        · obtain ⟨c', hc', hpx⟩ := analyzeHead_mem hne c hc
          rw [hpx]
          exact h1 c' hc'
        · exact hlo
        · exact hhi
      split at h
      · next hexit =>
        cases h
        refine ⟨hstepcs, hmem2, ?_, ?_, ?_⟩
        · dsimp only
          omega
        · intro hK
          dsimp only
          omega
        · left
          dsimp only
          omega
      · next hexit =>
        set cs3 := if cs.length - 1 + 1 = half then reprioritize cs2 (cs.length - 1 + 1)
          else cs2 with hcs3def
        set cs4 := cs3.set sx (setPriority img lo (decide (cs.length - 1 + 1 < half)))
          with hcs4def
        have hlen3 : cs3.length = cs2.length := by
          rw [hcs3def]
          split
          · exact reprioritize_length _ _
          · rfl
        have hsame3 : ∀ i d, sameStats (cs3.getD i d) (cs2.getD i d) := by
          intro i d
          rw [hcs3def]
          split
          · exact reprioritize_sameStats _ _ i d
          · exact sameStats_refl _
        have hmem3 : ∀ c ∈ cs3, ∃ c' ∈ cs2, c.px = c'.px := by
          intro c hc
          rw [hcs3def] at hc
          split at hc
          · exact reprioritize_mem _ _ c hc
          · exact ⟨c, hc, rfl⟩
        have hlen3' : cs3.length = (analyzeHead img half cs).length + 1 := by
          rw [hlen3, hlen2, analyzeHead_length]
        have hinv4 : StatsInv img cs4 := by
          rw [hcs4def]
          exact statsInv_post hlt (fun i hi => statsAll_head hinv i
            (by rwa [analyzeHead_length] at hi)) lo hi2 hlen3' hsame3 _
        have hne4 : cs4 ≠ [] := by
          refine List.length_pos.mp ?_
          rw [hcs4def, List.length_set, hlen3, hlen2]
          omega
        have hlen4 : cs4.length = cs.length + 1 := by
          rw [hcs4def, List.length_set, hlen3, hlen2]
        have hpx3sx : (cs3.getD sx (freshMCl [])).px = lo := by
          have h1 := (hsame3 sx (freshMCl [])).1
          rw [h1, hcs2def, cs2_getD_sx hlt lo hi2]
        have hpxs3 : cs3.map (fun c => c.px) = cs2.map (fun c => c.px) := by
          rw [hcs3def]
          split
          · exact reprioritize_px _ _
          · rfl
        have hpxs4 : cs4.map (fun c => c.px) = cs2.map (fun c => c.px) := by
          rw [hcs4def, pxs_set_setPriority img cs3 sx lo _ hpx3sx, hpxs3]
        have hmem4 : (∀ c ∈ cs, c.px ≠ []) → ∀ c ∈ cs4, c.px ≠ [] := by
          intro h1 c hc
          rw [hcs4def] at hc
          rcases List.mem_or_eq_of_mem_set hc with hc | rfl
          · obtain ⟨c', hc', hpx⟩ := hmem3 c hc
            rw [hpx]
            exact hmem2 h1 c' hc'
          · rw [setPriority_px]
            exact hlo
        obtain ⟨ihp, ihn, ihl, ihk, iht⟩ := ih cs4 (splits + 1) res h hinv4 hne4
        refine ⟨?_, ?_, ?_, ?_, iht⟩
        · refine ihp.trans ?_
          rw [hpxs4]
          exact hstepcs
        · intro h1
          exact ihn (hmem4 h1)
        · rw [hlen4] at ihl
          omega
        · intro hK
          refine ihk ?_
          rw [hlen4]
          omega

/-- With at least one free slot the mean loop cannot reach the out-of-range
access: it returns a result. -/
theorem meanLoop_isSome (img : Img) (K half : Nat) :
    ∀ fuel cs splits, fuel + cs.length = K → cs.length < K → cs ≠ [] →
      ∃ res, meanLoop img K half fuel cs splits = some res := by
  intro fuel
  induction fuel with
  | zero => intro cs splits hK hlt _; omega
  | succ fuel ih =>
    intro cs splits hK hlt hne
    have hcslen : 0 < cs.length := List.length_pos.mpr hne
    rw [meanLoop]
    cases hsel : meanSelect (analyzeHead img half cs) with
    | none => exact ⟨_, rfl⟩
    | some sx =>
      dsimp only
      set s := (analyzeHead img half cs).getD sx (freshMCl []) with hsdef
      set m := cutValue img s (decide (cs.length - 1 < half)) with hmdef
      set lo := meanSplitLow img s.widestCh m s.mn s.px with hlodef
      set hi2 := meanSplitHigh img s.widestCh m s.mn s.px with hhidef
      set cs2 := (analyzeHead img half cs).set sx { s with px := lo } ++ [freshMCl hi2]
        with hcs2def
      have hlen2 : cs2.length = cs.length + 1 := by
        rw [hcs2def]
        simp [analyzeHead_length]
      split
      · exact ⟨_, rfl⟩
      · next hexit =>
        set cs3 := if cs.length - 1 + 1 = half then reprioritize cs2 (cs.length - 1 + 1)
          else cs2 with hcs3def
        set cs4 := cs3.set sx (setPriority img lo (decide (cs.length - 1 + 1 < half)))
          with hcs4def
        have hlen3 : cs3.length = cs2.length := by
          rw [hcs3def]
          split
          · exact reprioritize_length _ _
          · rfl
        have hlen4 : cs4.length = cs.length + 1 := by
          rw [hcs4def, List.length_set, hlen3, hlen2]
        refine ih cs4 (splits + 1) (by omega) (by omega) ?_
        exact List.length_pos.mp (by omega)

/-! The pixel list enumerates distinct coordinates. -/

theorem pixelList_nodup (img : Img) : (pixelList img).Nodup := by
  rw [pixelList, List.nodup_flatten]
  constructor
  · intro l hl
    obtain ⟨y, _, rfl⟩ := List.mem_map.mp hl
    refine List.Nodup.map ?_ (List.nodup_range _)
    intro a b hab
    cases hab
    rfl
  · rw [List.pairwise_map]
    refine List.Pairwise.imp ?_ (List.nodup_range img.h)
    intro y1 y2 hne p hp1 hp2
    obtain ⟨x1, _, rfl⟩ := List.mem_map.mp hp1
    obtain ⟨x2, _, hx⟩ := List.mem_map.mp hp2
    exact hne (congrArg Point.y hx).symm

/-! Distinct-colour counting for the early-termination direction. -/

theorem mono_flatten_card (img : Img) :
    ∀ (cs : List (List Point)), (∀ c ∈ cs, ∀ p ∈ c, ∀ q ∈ c, img.At p = img.At q) →
      ((cs.flatten.map img.At).toFinset).card ≤ cs.length := by
  intro cs
  induction cs with
  | nil => intro _; simp
  | cons c rest ih =>
    intro hmono
    rw [List.flatten_cons, List.map_append, List.toFinset_append]
    refine le_trans (Finset.card_union_le _ _) ?_
    have h1 : ((c.map img.At).toFinset).card ≤ 1 := by
      refine Finset.card_le_one.mpr fun a ha b hb => ?_
      rw [List.mem_toFinset] at ha hb
      obtain ⟨pa, hpa, rfl⟩ := List.mem_map.mp ha
      obtain ⟨pb, hpb, rfl⟩ := List.mem_map.mp hb
      exact hmono c (List.mem_cons_self _ _) pa hpa pb hpb
    have h2 := ih fun c' hc' => hmono c' (List.mem_cons_of_mem _ hc')
    simp only [List.length_cons]
    omega

theorem distinct_le_of_mono {img : Img} {cs : List (List Point)}
    (hperm : cs.flatten.Perm (pixelList img))
    (hmono : ∀ c ∈ cs, ∀ p ∈ c, ∀ q ∈ c, img.At p = img.At q) :
    distinctColors img ≤ cs.length := by
  rw [distinctColors, ← List.toFinset_eq_of_perm _ _ (hperm.map img.At)]
  exact mono_flatten_card img cs hmono

/-! Paletted-image lemmas. -/

theorem palettedColors_length (img : Img) :
    ∀ cs cps, palettedColors img cs = some cps → cps.length = cs.length := by
  intro cs
  induction cs with
  | nil => intro cps h; cases h; rfl
  | cons c rest ih =>
    intro cps h
    rw [palettedColors] at h
    split at h
    · cases h
    · cases hr : palettedColors img rest with
      | none => rw [hr] at h; cases h
      | some cps' =>
        rw [hr] at h
        cases h
        simpa using ih cps' hr

theorem palettedColors_some (img : Img) :
    ∀ cs, (∀ c ∈ cs, c ≠ []) → ∃ cps, palettedColors img cs = some cps := by
  intro cs
  induction cs with
  | nil => intro _; exact ⟨[], rfl⟩
  | cons c rest ih =>
    intro hne
    obtain ⟨cps, hcps⟩ := ih fun c' hc' => hne c' (List.mem_cons_of_mem _ hc')
    refine ⟨avgColor img c :: cps, ?_⟩
    rw [palettedColors, if_neg, hcps]
    simpa using hne c (List.mem_cons_self _ _)

theorem paletted_palette_length {img : Img} {cs : List (List Point)} {P : Paletted}
    (h : paletted img cs = some P) : P.palette.length = cs.length := by
  rw [paletted] at h
  cases hc : palettedColors img cs with
  | none => rw [hc] at h; cases h
  | some cps =>
    rw [hc] at h
    cases h
    exact palettedColors_length img cs cps hc

/-! Linear-scan nearest-colour lemmas. -/

/-- For channel values within the `RGBA()` contract, squared distances stay
far below the `math.MaxInt64` seed of the scan. -/
theorem sqDist_lt_seed {c pc : SRGB} (hc : SRGBBounded c) (hpc : SRGBBounded pc) :
    sqDist c pc < 2 ^ 63 - 1 := by
  obtain ⟨h1, h2, h3, h4, h5, h6⟩ := hc
  obtain ⟨g1, g2, g3, g4, g5, g6⟩ := hpc
  rw [sqDist]
  have br : (c.r - pc.r) * (c.r - pc.r) ≤ 65535 * 65535 := by nlinarith
  have bg : (c.g - pc.g) * (c.g - pc.g) ≤ 65535 * 65535 := by nlinarith
  have bb : (c.b - pc.b) * (c.b - pc.b) ≤ 65535 * 65535 := by nlinarith
  omega

/-- Invariant of the `sPalette.index` scan: once the running best is a real
entry whose distance bounds every earlier entry, the final answer is a
global minimiser. -/
theorem spIndexFrom_spec (c : SRGB) (p : List SRGB) (d : SRGB) :
    ∀ (rest : List SRGB) (j best : Nat) (mn : Int),
      rest = p.drop j → best < p.length → mn = sqDist c (p.getD best d) →
      (∀ k, k < j → mn ≤ sqDist c (p.getD k d)) →
      spIndexFrom c rest j best mn < p.length ∧
      ∀ k, k < p.length →
        sqDist c (p.getD (spIndexFrom c rest j best mn) d) ≤ sqDist c (p.getD k d) := by
  intro rest
  induction rest with
  | nil =>
    intro j best mn hdrop hbl hmn hprev
    rw [spIndexFrom]
    refine ⟨hbl, fun k hk => ?_⟩
    have hj : p.length ≤ j := List.drop_eq_nil_iff.mp hdrop.symm
    rw [← hmn]
    exact hprev k (by omega)
  | cons pc rest' ih =>
    intro j best mn hdrop hbl hmn hprev
    have hj : j < p.length := by
      by_contra hge
      push_neg at hge
      rw [List.drop_eq_nil_iff.mpr hge] at hdrop
      cases hdrop
    have hdc := List.drop_eq_getElem_cons hj
    rw [hdc] at hdrop
    have hpc : p.getD j d = pc := by
      rw [List.getD_eq_getElem _ d hj]
      exact (List.cons.injEq .. ▸ hdrop).1.symm
    have hrest' : rest' = p.drop (j + 1) := (List.cons.injEq .. ▸ hdrop).2
    rw [spIndexFrom]
    split
    · next hlt =>
      refine ih (j + 1) j (sqDist c pc) hrest' hj (by rw [hpc]) ?_
      intro k hk
      rcases Nat.lt_or_ge k j with h | h
      · have := hprev k h
        omega
      · have hkj : k = j := by omega
        rw [hkj, hpc]
    · next hge =>
      refine ih (j + 1) best mn hrest' hbl hmn ?_
      intro k hk
      rcases Nat.lt_or_ge k j with h | h
      · exact hprev k h
      · have hkj : k = j := by omega
        rw [hkj, hpc]
        omega

/-- `sPalette.index` returns the index of an entry at minimal squared
distance (the first such on ties). -/
theorem spIndex_argmin {p : List SRGB} {c : SRGB} (hne : p ≠ [])
    (hb : ∀ pc ∈ p, SRGBBounded pc) (hc : SRGBBounded c) :
    spIndex p c < p.length ∧
    ∀ k, k < p.length →
      sqDist c (p.getD (spIndex p c) ⟨0, 0, 0⟩) ≤ sqDist c (p.getD k ⟨0, 0, 0⟩) := by
  cases p with
  | nil => cases hne rfl
  | cons pc rest =>
    rw [spIndex, spIndexFrom]
    split
    · next h =>
      refine spIndexFrom_spec c (pc :: rest) ⟨0, 0, 0⟩ rest 1 0 _ rfl (by simp) rfl ?_
      intro k hk
      have hk0 : k = 0 := by omega
      rw [hk0]
      exact le_refl _
    · next h =>
      exact absurd (sqDist_lt_seed hc (hb pc (List.mem_cons_self _ _))) h

/-- With a unique nearest entry the linear scan returns exactly its index. -/
theorem spIndex_unique {p : List SRGB} {c : SRGB} (hne : p ≠ [])
    (hb : ∀ pc ∈ p, SRGBBounded pc) (hc : SRGBBounded c) {i : Nat} (hi : i < p.length)
    (huniq : ∀ j, j < p.length → j ≠ i →
      sqDist c (p.getD i ⟨0, 0, 0⟩) < sqDist c (p.getD j ⟨0, 0, 0⟩)) :
    spIndex p c = i := by
  obtain ⟨h1, h2⟩ := spIndex_argmin hne hb hc
  by_contra hne2
  have ha := huniq (spIndex p c) h1 hne2
  have hb2 := h2 i hi
  omega

/-! Tree-palette search lemmas. -/

/-- The tree descent always ends at a leaf of the tree, so the returned
index is one of the leaf indices. -/
theorem searchIndex_mem_leaves (t : TreePalette) (c : RGB) :
    ∃ col, (t.searchIndex c, col) ∈ t.leaves := by
  induction t with
  | leaf i col => exact ⟨col, by simp [TreePalette.searchIndex, TreePalette.leaves]⟩
  | node ax s lo hi ihlo ihhi =>
    rw [TreePalette.searchIndex, TreePalette.leaves]
    split
    · obtain ⟨col, h⟩ := ihlo
      exact ⟨col, List.mem_append_left _ h⟩
    · obtain ⟨col, h⟩ := ihhi
      exact ⟨col, List.mem_append_right _ h⟩

/-! Concrete test inputs used by counterexamples and witnesses. -/

/-- Zero-area image (empty bounds). -/
def imgEmpty : Img := ⟨0, 0, fun _ => ⟨0, 0, 0⟩⟩

/-- One-pixel black image. -/
def imgOne : Img := ⟨1, 1, fun _ => ⟨0, 0, 0⟩⟩

/-- Two-pixel image with two distinct grey levels. -/
def imgTwo : Img := ⟨2, 1, fun p => if p.x = 0 then ⟨0, 0, 0⟩ else ⟨100, 100, 100⟩⟩

/-- Three-pixel image with three distinct grey levels. -/
def imgThree : Img :=
  ⟨3, 1, fun p =>
    if p.x = 0 then ⟨0, 0, 0⟩ else if p.x = 1 then ⟨100, 100, 100⟩ else ⟨200, 200, 200⟩⟩

/-- Two-pixel image whose red and green ranges tie (both 10) while blue is
constant. -/
def imgTie : Img := ⟨2, 1, fun p => if p.x = 0 then ⟨0, 0, 0⟩ else ⟨10, 10, 0⟩⟩

theorem imgOne_wf : ImgWF imgOne := by
  intro p
  exact ⟨Nat.zero_le _, Nat.zero_le _, Nat.zero_le _⟩

theorem imgTwo_wf : ImgWF imgTwo := by
  intro p
  simp only [imgTwo, ImgWF]
  split <;> exact ⟨by decide, by decide, by decide⟩

/-- Two-entry signed palette: black and a red of value 100. -/
def spEx : List SRGB := [⟨0, 0, 0⟩, ⟨100, 0, 0⟩]

/-- A `TreePalette` whose two leaves correspond one-to-one to `spEx`,
splitting the red axis at 10. -/
def treeEx : TreePalette :=
  .node .wr 10 (.leaf 0 ⟨0, 0, 0⟩) (.leaf 1 ⟨100, 0, 0⟩)

/-! Claim theorems. -/

/-- C1 counterexample: the claim promises the partition for every K >= 1,
but the median-cut `cluster()` on a two-colour image with K = 1 evaluates
`&qz.cs[i]` with `i = len(qz.cs) = 1` and panics (modelled `none`), so no
cluster list is returned at all. -/
theorem C1_counterexample : mcluster imgTwo 1 = none := by decide

/-- C1 (amended): whenever a ClusterSplitter run does return a cluster list
(median or mean variant), the pixel lists of the returned clusters are
pairwise disjoint and their union is, as a multiset, exactly the full pixel
list of the input image. -/
theorem C1_partition (img : Img) (hwf : ImgWF img) (K : Nat) :
    (∀ cs k, mcluster img K = some (cs, k) →
      cs.flatten.Perm (pixelList img) ∧ cs.Pairwise List.Disjoint) ∧
    (∀ cs k, meanCluster img K = some (cs, k) →
      ((cs.map (fun c => c.px)).flatten).Perm (pixelList img) ∧
      (cs.map (fun c => c.px)).Pairwise List.Disjoint) := by
  have hflat : List.flatten [pixelList img] = pixelList img := by simp
  constructor
  · intro cs k h
    have hperm := mloop_perm img K (K - 1) [pixelList img] 0 (cs, k) h
    dsimp only at hperm
    rw [hflat] at hperm
    refine ⟨hperm, ?_⟩
    have hnd : cs.flatten.Nodup := (hperm.symm).nodup (pixelList_nodup img)
    exact (List.nodup_flatten.mp hnd).2
  · intro cs k h
    have hmain := meanLoop_main img K (K / 2) hwf (K - 1) [freshMCl (pixelList img)] 0 (cs, k) h
      (by intro i hi; simp at hi) (by simp)
    have hperm := hmain.1
    dsimp only at hperm
    have hflat2 : (([freshMCl (pixelList img)].map (fun c => c.px)).flatten) = pixelList img := by
      simp [freshMCl]
    rw [hflat2] at hperm
    refine ⟨hperm, ?_⟩
    have hnd : ((cs.map (fun c => c.px)).flatten).Nodup :=
      (hperm.symm).nodup (pixelList_nodup img)
    exact (List.nodup_flatten.mp hnd).2

/-- C1 witness: the partition conclusions instantiated on the two-colour
image with K = 2, for both variants. -/
theorem C1_partition_witness :
    (([[Point.mk 0 0], [Point.mk 1 0]] : List (List Point)).flatten.Perm (pixelList imgTwo) ∧
      ([[Point.mk 0 0], [Point.mk 1 0]] : List (List Point)).Pairwise List.Disjoint) ∧
    ((([⟨[Point.mk 0 0], Channel.wg, 0, 100, 1000000, 2⟩,
        ⟨[Point.mk 1 0], Channel.wr, 0, 0, 0, 0⟩] : List MCl).map (fun c => c.px)).flatten.Perm
        (pixelList imgTwo) ∧
      (([⟨[Point.mk 0 0], Channel.wg, 0, 100, 1000000, 2⟩,
        ⟨[Point.mk 1 0], Channel.wr, 0, 0, 0, 0⟩] : List MCl).map
          (fun c => c.px)).Pairwise List.Disjoint) :=
  ⟨(C1_partition imgTwo imgTwo_wf 2).1 [[Point.mk 0 0], [Point.mk 1 0]] 1 (by decide),
   (C1_partition imgTwo imgTwo_wf 2).2
     [⟨[Point.mk 0 0], Channel.wg, 0, 100, 1000000, 2⟩,
      ⟨[Point.mk 1 0], Channel.wr, 0, 0, 0, 0⟩] 1 (by decide)⟩

/-- C2 counterexample: on a zero-area image with K = 2 the median
`cluster()` returns a single empty cluster, although the claim only excepts
the single-cluster result when K = 1. -/
theorem C2_counterexample :
    mcluster imgEmpty 2 = some ([[]], 0) ∧ ([] : List Point) ∈ [([] : List Point)] :=
  ⟨by decide, by decide⟩

/-- C2 (amended): a split of a cluster whose widest channel has
`max > min` always produces two non-empty halves (median cut, and mean cut
with its boundary exception), and consequently on a non-empty image every
cluster returned by either variant is non-empty. -/
theorem C2_nondegenerate (img : Img) (hwf : ImgWF img) :
    (∀ px : List Point, (setWidestChannel img px).2 = true →
      splitLow img (setWidestChannel img px).1
          (medianCut (chanVals img (setWidestChannel img px).1 px)) px ≠ [] ∧
      splitHigh img (setWidestChannel img px).1
          (medianCut (chanVals img (setWidestChannel img px).1 px)) px ≠ []) ∧
    (∀ (c : MCl) (e : Bool), statsOK img c → c.mx > c.mn →
      meanSplitLow img c.widestCh (cutValue img c e) c.mn c.px ≠ [] ∧
      meanSplitHigh img c.widestCh (cutValue img c e) c.mn c.px ≠ []) ∧
    (pixelList img ≠ [] →
      (∀ K cs k, mcluster img K = some (cs, k) → ∀ c ∈ cs, c ≠ []) ∧
      (∀ K cs k, meanCluster img K = some (cs, k) → ∀ c ∈ cs, c.px ≠ [])) := by
  refine ⟨fun px h => medianSplit_nonempty hwf h,
    fun c e hok hgt => meanSplit_nonempty hwf hok hgt e, fun hne => ⟨?_, ?_⟩⟩
  · intro K cs k h
    exact mloop_nonempty img K hwf (K - 1) [pixelList img] 0 (cs, k) h
      (by intro c hc; rw [List.mem_singleton.mp hc]; exact hne)
  · intro K cs k h
    have hmain := meanLoop_main img K (K / 2) hwf (K - 1) [freshMCl (pixelList img)] 0 (cs, k) h
      (by intro i hi; simp at hi) (by simp)
    exact hmain.2.1 (by intro c hc; rw [List.mem_singleton.mp hc]; exact hne)

/-- C2 witness: the median split of the first cluster of the two-colour
image is non-degenerate. -/
theorem C2_nondegenerate_witness :
    splitLow imgTwo (setWidestChannel imgTwo (pixelList imgTwo)).1
        (medianCut (chanVals imgTwo (setWidestChannel imgTwo (pixelList imgTwo)).1
          (pixelList imgTwo))) (pixelList imgTwo) ≠ [] ∧
    splitHigh imgTwo (setWidestChannel imgTwo (pixelList imgTwo)).1
        (medianCut (chanVals imgTwo (setWidestChannel imgTwo (pixelList imgTwo)).1
          (pixelList imgTwo))) (pixelList imgTwo) ≠ [] :=
  (C2_nondegenerate imgTwo imgTwo_wf).1 (pixelList imgTwo) (by decide)

/-- C3: on a zero-area image both quantizers' `paletted()` reaches
`rsum / n64` with `n64 = len(px) << 8 = 0`, an integer division by zero
that panics (modelled `none`) instead of returning an empty paletted image
as the spec requires; the ditherers, by contrast, do return the empty
result through their empty-bounds early exit. -/
theorem C3_zero_area :
    medianQuantize imgEmpty 1 = none ∧
    medianQuantize imgEmpty 2 = none ∧
    meanImage imgEmpty 2 = none ∧
    meanImage imgEmpty 256 = none ∧
    dither211 imgEmpty [⟨0, 0, 0⟩] = some ⟨[⟨0, 0, 0⟩], []⟩ ∧
    Dither imgEmpty [⟨0, 0, 0⟩] (fun _ => 0) = some ⟨[⟨0, 0, 0⟩], []⟩ :=
  ⟨by decide, by decide, by decide, by decide, rfl, rfl⟩

/-- C4 counterexample: the unsigned `Dither` does not redistribute the full
residual: for residual 3 it sends 1 right and 0 to each next-row cell, and a
negative residual (palette value above the accumulator) is zeroed out
entirely. -/
theorem C4_counterexample :
    (((ditherKernel 3 0).1 : Int) + (ditherKernel 3 0).2.1 + (ditherKernel 3 0).2.2 ≠ 3 - 0) ∧
    (((ditherKernel 0 5).1 : Int) + (ditherKernel 0 5).2.1 + (ditherKernel 0 5).2.2 ≠ 0 - 5) := by
  decide

/-- C4 (amended): the signed `dither211` kernel conserves the residual
exactly: the amount carried right plus the amount assigned to the next-row
diagonal cell plus the amount added to the directly-below cell equals the
whole residual, for every signed per-channel residual. -/
theorem C4_conservation (e : Int) :
    (dither211Kernel e).1 + (dither211Kernel e).2.1 + (dither211Kernel e).2.2 = e := by
  simp only [dither211Kernel]
  ring

/-- C5 counterexample: with palette `spEx` and query red 20, the entry at
index 0 is the strictly unique nearest, the linear scan returns 0, yet the
tree whose leaves correspond one-to-one to the palette routes the query to
the high side of its red-10 threshold and returns 1. -/
theorem C5_counterexample :
    spIndex spEx ⟨20, 0, 0⟩ = 0 ∧
    treeEx.searchIndex ⟨20, 0, 0⟩ = 1 ∧
    treeEx.leaves = [(0, ⟨0, 0, 0⟩), (1, ⟨100, 0, 0⟩)] ∧
    sqDist ⟨20, 0, 0⟩ (spEx.getD 0 ⟨0, 0, 0⟩) < sqDist ⟨20, 0, 0⟩ (spEx.getD 1 ⟨0, 0, 0⟩) := by
  decide

/-- C5 (amended): for a non-empty palette within the channel contract the
linear scan does return the unique nearest index when one exists; the tree
descent returns the index stored at whichever leaf its thresholds select,
hence always an index of some leaf, and it provably agrees with the linear
scan for a single-entry palette, but not in general (see the
counterexample). -/
theorem C5_nearest (p : List SRGB) (c : SRGB) (hne : p ≠ [])
    (hb : ∀ pc ∈ p, SRGBBounded pc) (hc : SRGBBounded c) :
    (∀ i, i < p.length →
      (∀ j, j < p.length → j ≠ i →
        sqDist c (p.getD i ⟨0, 0, 0⟩) < sqDist c (p.getD j ⟨0, 0, 0⟩)) →
      spIndex p c = i) ∧
    (∀ (t : TreePalette) (q : RGB), ∃ col, (t.searchIndex q, col) ∈ t.leaves) ∧
    (p.length = 1 → ∀ (col : RGB) (q : RGB),
      spIndex p c = (TreePalette.leaf 0 col).searchIndex q) := by
  refine ⟨fun i hi huniq => spIndex_unique hne hb hc hi huniq,
    fun t q => searchIndex_mem_leaves t q, ?_⟩
  intro hlen col q
  have h1 := (spIndex_argmin hne hb hc).1
  rw [hlen] at h1
  have : spIndex p c = 0 := by omega
  rw [this]
  rfl

/-- C5 witness: the instantiated nearest-agreement conclusion on `spEx`
with the query red 1, whose unique nearest entry is index 0. -/
theorem C5_nearest_witness : spIndex spEx ⟨1, 0, 0⟩ = 0 :=
  (C5_nearest spEx ⟨1, 0, 0⟩ (by decide) (by decide) (by decide)).1 0 (by decide) (by decide)

/-- C6 counterexample: a nil `TreePalette` (the empty palette) answers
`IndexNear` with -1, and the empty `sPalette` answers 0; neither satisfies
`0 <= i < palette size` for size 0. -/
theorem C6_counterexample :
    indexNear none ⟨0, 0, 0⟩ = -1 ∧
    spIndex [] ⟨0, 0, 0⟩ = 0 ∧ ([] : List SRGB).length = 0 := by
  decide

/-- C6 (amended): for a non-empty palette within the channel contract the
linear scan returns a valid index `0 <= i < size`, and a non-nil
`TreePalette` whose leaf indices all lie below the palette size returns a
valid index for every query colour. -/
theorem C6_valid_index (p : List SRGB) (c : SRGB) (hne : p ≠ [])
    (hb : ∀ pc ∈ p, SRGBBounded pc) (hc : SRGBBounded c)
    (t : TreePalette) (n : Nat) (hleaf : ∀ pr ∈ t.leaves, pr.1 < n) (q : RGB) :
    spIndex p c < p.length ∧ 0 ≤ indexNear (some t) q ∧ indexNear (some t) q < n := by
  refine ⟨(spIndex_argmin hne hb hc).1, ?_, ?_⟩
  · exact Int.ofNat_nonneg _
  · obtain ⟨col, hmem⟩ := searchIndex_mem_leaves t q
    have h3 : t.searchIndex q < n := hleaf _ hmem
    have h2 : indexNear (some t) q = (t.searchIndex q : Int) := rfl
    rw [h2]
    exact_mod_cast h3

/-- C6 witness: valid indices on the concrete palette `spEx` and tree
`treeEx`. -/
theorem C6_valid_index_witness :
    spIndex spEx ⟨1, 0, 0⟩ < spEx.length ∧
    0 ≤ indexNear (some treeEx) ⟨0, 0, 0⟩ ∧ indexNear (some treeEx) ⟨0, 0, 0⟩ < 2 :=
  C6_valid_index spEx ⟨1, 0, 0⟩ (by decide) (by decide) (by decide) treeEx 2 (by decide)
    ⟨0, 0, 0⟩

/-- C7 counterexample: on `imgTie` the red and green ranges are equal (and
blue narrower), and the code selects green, not red: ties between R and G
go to G, refuting the claim's "R wins ties with G". -/
theorem C7_counterexample :
    chRange (extents imgTie (pixelList imgTie)) .wr =
        chRange (extents imgTie (pixelList imgTie)) .wg ∧
    (setWidestChannel imgTie (pixelList imgTie)).1 = Channel.wg := by
  decide

/-- C7 (amended): channels are evaluated G, then R, then B, overwriting the
current choice only when strictly wider; the net effect is that blue wins
only when strictly wider than both others and red only when strictly wider
than green, i.e. G wins ties with R and the G/R winner wins ties with B.
The same block decides `setPriority` in the mean variant. -/
theorem C7_channel_order (img : Img) (px : List Point) (e : Bool) :
    (setWidestChannel img px).1 =
      (if chRange (extents img px) .wb > chRange (extents img px) .wr ∧
          chRange (extents img px) .wb > chRange (extents img px) .wg then Channel.wb
        else if chRange (extents img px) .wr > chRange (extents img px) .wg then Channel.wr
        else Channel.wg) ∧
    (setPriority img px e).widestCh = (setWidestChannel img px).1 := by
  exact ⟨widestOf_net (extents img px), rfl⟩

/-- C8 counterexample: on a three-colour image with K = 3 the mean variant
stops with only 2 clusters although 3 distinct colours exist: after the
early/late transition the remaining splittable cluster's fixed-point
priority `population * (volume >> 16) >> 29` is 0 and the selection scan
(`priority > maxP` with `maxP` starting at 0) can never pick it. -/
theorem C8_counterexample :
    (meanCluster imgThree 3).map (fun r => r.1.length) = some 2 ∧
    distinctColors imgThree = 3 := by
  decide

/-- C8 (amended): for K >= 1 both variants return between 1 and K clusters
(whenever they return at all), the count is exactly 1 plus the number of
splits performed, and for K >= 2 both runs do return.  A short median
result implies fewer than K distinct colours in the image; a short mean
result only implies that every remaining cluster is monochrome or has zero
late-phase priority (which, per the counterexample, can happen with K or
more distinct colours). -/
theorem C8_bounds (img : Img) (hwf : ImgWF img) (K : Nat) (hK : 1 ≤ K) :
    (∀ cs k, mcluster img K = some (cs, k) →
      1 ≤ cs.length ∧ cs.length ≤ K ∧ cs.length = 1 + k ∧
      (cs.length < K → distinctColors img < K)) ∧
    (∀ cs k, meanCluster img K = some (cs, k) →
      1 ≤ cs.length ∧ cs.length ≤ K ∧ cs.length = 1 + k ∧
      (cs.length < K →
        ∀ c ∈ cs, (∀ p ∈ c.px, ∀ q ∈ c.px, img.At p = img.At q) ∨ c.priority = 0)) ∧
    (2 ≤ K →
      (∃ res, mcluster img K = some res) ∧ (∃ res, meanCluster img K = some res)) := by
  refine ⟨?_, ?_, ?_⟩
  · intro cs k h
    have hlen := mloop_len img K (K - 1) [pixelList img] 0 (cs, k) h
    have hle := mloop_le img K (K - 1) [pixelList img] 0 (cs, k) h
      (by simp only [List.length_singleton]; omega)
    have hterm := mloop_term img K (K - 1) [pixelList img] 0 (cs, k) h
    have hperm := mloop_perm img K (K - 1) [pixelList img] 0 (cs, k) h
    simp only [List.length_singleton] at hlen
    dsimp only at hlen hle hterm hperm
    refine ⟨by omega, hle, by omega, ?_⟩
    intro hlt
    rcases hterm with hK' | hmono
    · omega
    · have hflat : List.flatten [pixelList img] = pixelList img := by simp
      rw [hflat] at hperm
      have := distinct_le_of_mono hperm fun c hc => mono_of_not_splittable (hmono c hc)
      omega
  · intro cs k h
    have hmain := meanLoop_main img K (K / 2) hwf (K - 1) [freshMCl (pixelList img)] 0 (cs, k) h
      (by intro i hi; simp at hi) (by simp)
    obtain ⟨hp, hn, ⟨hl1, hl2⟩, hk, ht⟩ := hmain
    simp only [List.length_singleton] at hl1
    dsimp only at hl1 hk ht
    refine ⟨by omega, hk (by simp only [List.length_singleton]; omega), by omega, ?_⟩
    intro hlt
    rcases ht with hK' | hmono
    · omega
    · exact hmono
  · intro hK2
    constructor
    · exact mloop_isSome img K (K - 1) [pixelList img] 0
        (by simp only [List.length_singleton]; omega)
        (by simp only [List.length_singleton]; omega)
    · exact meanLoop_isSome img K (K / 2) (K - 1) [freshMCl (pixelList img)] 0
        (by simp only [List.length_singleton]; omega)
        (by simp only [List.length_singleton]; omega) (by simp)

/-- C8 witness: the bounds instantiated on the two-colour image with K = 2
for the median variant. -/
theorem C8_bounds_witness :
    1 ≤ ([[Point.mk 0 0], [Point.mk 1 0]] : List (List Point)).length ∧
    ([[Point.mk 0 0], [Point.mk 1 0]] : List (List Point)).length ≤ 2 ∧
    ([[Point.mk 0 0], [Point.mk 1 0]] : List (List Point)).length = 1 + 1 ∧
    (([[Point.mk 0 0], [Point.mk 1 0]] : List (List Point)).length < 2 →
      distinctColors imgTwo < 2) :=
  (C8_bounds imgTwo imgTwo_wf 2 (by decide)).1 [[Point.mk 0 0], [Point.mk 1 0]] 1 (by decide)

/-- C9: the median variant has the undocumented precondition `n >= 1`: for
`n <= 0` the quantizer construction itself fails (`make` with a negative
length, or `&qz.cs[0]` on an empty cluster slice), modelled as `none`,
while the mean variant guards `n < 1` and returns an empty-palette image
without failing. -/
theorem C9_guard (img : Img) (n : Int) (hn : n ≤ 0) :
    medianQuantize img n = none ∧ meanImage img n = some ⟨[], []⟩ := by
  constructor
  · rw [medianQuantize, if_pos (by omega)]
  · rw [meanImage]
    have h1 : (if n > 256 then (256 : Int) else n) = n := if_neg (by omega)
    rw [h1, if_pos (by omega)]
    rfl

/-- C9 witness: the guard behaviour at `n = 0` on a concrete image. -/
theorem C9_guard_witness :
    medianQuantize imgTwo 0 = none ∧ meanImage imgTwo 0 = some ⟨[], []⟩ :=
  C9_guard imgTwo 0 (by decide)

/-- C10: the mean `Image` silently clamps the requested colour count at
256: for every `n > 256` the result equals the `n = 256` result, and any
returned image has at most 256 palette entries. -/
theorem C10_clamp (img : Img) (hwf : ImgWF img) (n : Int) (hn : n > 256) :
    meanImage img n = meanImage img 256 ∧
    ∀ P, meanImage img n = some P → P.palette.length ≤ 256 := by
  have h2 : (if (256 : Int) > 256 then (256 : Int) else 256) = 256 := if_neg (by decide)
  have hclamp : meanImage img n = meanImage img 256 := by
    rw [meanImage, meanImage]
    have h1 : (if n > 256 then (256 : Int) else n) = 256 := if_pos hn
    rw [h1, h2]
  refine ⟨hclamp, ?_⟩
  intro P hP
  rw [hclamp, meanImage] at hP
  rw [h2, if_neg (by decide), if_pos (by decide)] at hP
  cases hm : meanCluster img (256 : Int).toNat with
  | none => rw [hm] at hP; cases hP
  | some r =>
    obtain ⟨cs, k⟩ := r
    rw [hm] at hP
    have hlen := paletted_palette_length hP
    have hmain := meanLoop_main img 256 (256 / 2) hwf 255 [freshMCl (pixelList img)] 0 (cs, k) hm
      (by intro i hi; simp at hi) (by simp)
    have hle := hmain.2.2.2.1 (by simp only [List.length_singleton])
    dsimp only at hle
    rw [hlen, List.length_map]
    exact hle

/-- C10 witness: clamp behaviour at `n = 257` on the one-pixel image. -/
theorem C10_clamp_witness :
    meanImage imgOne 257 = meanImage imgOne 256 ∧
    (Paletted.mk [⟨0, 0, 0, 255⟩] [(⟨0, 0⟩, 0)]).palette.length ≤ 256 :=
  ⟨(C10_clamp imgOne imgOne_wf 257 (by decide)).1,
   (C10_clamp imgOne imgOne_wf 257 (by decide)).2 ⟨[⟨0, 0, 0, 255⟩], [(⟨0, 0⟩, 0)]⟩ (by decide)⟩

end Quant
